import Mathlib

/-!
Shallow embedding of the WideMindsMCP session/thought-tree core
(`internal/models`, `internal/storage/session_store.go`,
`internal/services/session_manager.go`, `internal/utils/validation.go`).

Modelling conventions:
* `time.Time` is modelled as `Nat` (a point on the timeline); the Go zero
  time is `0`, `t.Before(u)` is `t < u`, `t.IsZero()` is `t = 0`.
  `time.Now()` results are threaded through as explicit `now` parameters.
* Go `float64` (`Direction.Relevance`) is modelled as `Rat`; no verified
  claim reads this field, only order comparisons against 0 and 1 occur.
* Go maps are modelled as association lists (`List (String × _)`) with a
  replace-or-append `mapSet`; map iteration order is unspecified in Go, so
  theorems about map-iterating functions only state order-insensitive facts.
* The unexported `Thought.parent` back-pointer is not representable in a
  pure tree; it is only ever written (never read) by the operations under
  verification (`NormalizeTree`, `AddChild`), and it is not serialized, so
  it is omitted from the embedding.
* Pointer identity into a mutable tree is rendered as a position: a list of
  child indices from the root (`List Nat`).  BFS traversals carry these
  positions as ghost data; they do not affect traversal order.
-/

namespace WideMinds

/-- Error kinds of the `internal/errors` package plus the ad-hoc
`"session %s already exists"` error of the stores.  `ErrThoughtNotFound` is
referenced by `session.go` but its declaration is not among the provided
sources; it is modelled from the spec's error taxonomy (§7). -/
inductive Err : Type where
  | invalidRequest : Err
  | sessionNotFound : Err
  | thoughtNotFound : Err
  | alreadyExists : Err
deriving DecidableEq

/-- Go `type DirectionType string` with constants broad/deep/lateral/critical. -/
abbrev DirectionType := String

def Broad : DirectionType := "broad"

def Deep : DirectionType := "deep"

def Lateral : DirectionType := "lateral"

def Critical : DirectionType := "critical"

/-- `models.Direction` (direction.go). `Relevance float64` is modelled as `Rat`. -/
structure Direction where
  type : DirectionType
  title : String
  description : String
  keywords : List String
  relevance : Rat
deriving DecidableEq

/-- Whitespace per Go's `unicode.IsSpace` (the code points `strings.TrimSpace`
strips in the Latin-1 range). -/
def isSpaceChar (c : Char) : Bool :=
  c = ' ' ∨ c = '\t' ∨ c = '\n' ∨ c = '\u000B' ∨ c = '\u000C' ∨ c = '\r' ∨
    c = '\u0085' ∨ c = '\u00A0'

/-- Go `strings.TrimSpace`, modelled structurally over the character list so
that it evaluates in the kernel. -/
def trimSpace (s : String) : String :=
  ⟨((s.data.dropWhile isSpaceChar).reverse.dropWhile isSpaceChar).reverse⟩

/-- Go `strings.ToLower` (ASCII case mapping suffices for the claims). -/
def toLowerStr (s : String) : String :=
  ⟨s.data.map Char.toLower⟩

/-- `models.Thought` (thought.go): a tree node.  Fields in source order; the
unexported `parent` back-pointer is omitted (see the module conventions). -/
inductive Thought : Type where
  | mk (id : String) (content : String) (parentID : Option String) (sessionID : String)
      (direction : Direction) (depth : Nat) (createdAt : Nat)
      (children : List Thought) (path : List String) : Thought

def Thought.id : Thought → String
  | ⟨i, _, _, _, _, _, _, _, _⟩ => i

def Thought.content : Thought → String
  | ⟨_, c, _, _, _, _, _, _, _⟩ => c

def Thought.parentID : Thought → Option String
  | ⟨_, _, p, _, _, _, _, _, _⟩ => p

def Thought.sessionID : Thought → String
  | ⟨_, _, _, s, _, _, _, _, _⟩ => s

def Thought.direction : Thought → Direction
  | ⟨_, _, _, _, d, _, _, _, _⟩ => d

def Thought.depth : Thought → Nat
  | ⟨_, _, _, _, _, dep, _, _, _⟩ => dep

def Thought.createdAt : Thought → Nat
  | ⟨_, _, _, _, _, _, ca, _, _⟩ => ca

def Thought.children : Thought → List Thought
  | ⟨_, _, _, _, _, _, _, cs, _⟩ => cs

def Thought.path : Thought → List String
  | ⟨_, _, _, _, _, _, _, _, pa⟩ => pa

def Thought.withChildren : Thought → List Thought → Thought
  | ⟨i, c, p, s, d, dep, ca, _, pa⟩, cs => ⟨i, c, p, s, d, dep, ca, cs, pa⟩

def Thought.withContent : Thought → String → Thought
  | ⟨i, _, p, s, d, dep, ca, cs, pa⟩, c => ⟨i, c, p, s, d, dep, ca, cs, pa⟩

def Thought.withDirection : Thought → Direction → Thought
  | ⟨i, c, p, s, _, dep, ca, cs, pa⟩, d => ⟨i, c, p, s, d, dep, ca, cs, pa⟩

def Thought.withSessionID : Thought → String → Thought
  | ⟨i, c, p, _, d, dep, ca, cs, pa⟩, s => ⟨i, c, p, s, d, dep, ca, cs, pa⟩

mutual

def Thought.decEq : (a b : Thought) → Decidable (a = b)
  | ⟨i1, c1, p1, s1, d1, dp1, ca1, cs1, pa1⟩, ⟨i2, c2, p2, s2, d2, dp2, ca2, cs2, pa2⟩ =>
    if h : i1 = i2 ∧ c1 = c2 ∧ p1 = p2 ∧ s1 = s2 ∧ d1 = d2 ∧ dp1 = dp2 ∧ ca1 = ca2 ∧ pa1 = pa2 then
      match Thought.decEqList cs1 cs2 with
      | isTrue hcs => isTrue (by
          obtain ⟨h1, h2, h3, h4, h5, h6, h7, h8⟩ := h
          subst h1 h2 h3 h4 h5 h6 h7 h8 hcs
          rfl)
      | isFalse hcs => isFalse (by
          intro he
          apply hcs
          injection he)
    else
      isFalse (by
        intro he
        apply h
        injection he with e1 e2 e3 e4 e5 e6 e7 e8 e9
        exact ⟨e1, e2, e3, e4, e5, e6, e7, e9⟩)

def Thought.decEqList : (a b : List Thought) → Decidable (a = b)
  | [], [] => isTrue rfl
  | [], _ :: _ => isFalse (by simp)
  | _ :: _, [] => isFalse (by simp)
  | a :: as, b :: bs =>
    match Thought.decEq a b, Thought.decEqList as bs with
    | isTrue h1, isTrue h2 => isTrue (by rw [h1, h2])
    | isFalse h1, _ => isFalse (by simp [h1])
    | _, isFalse h2 => isFalse (by simp [h2])

end

instance : DecidableEq Thought := Thought.decEq

mutual

/-- Number of nodes of a thought tree (the node itself plus all descendants). -/
def Thought.sizeT : Thought → Nat
  | ⟨_, _, _, _, _, _, _, cs, _⟩ => 1 + sizeTList cs

def sizeTList : List Thought → Nat
  | [] => 0
  | t :: ts => t.sizeT + sizeTList ts

end

mutual

/-- All nodes of a thought tree, the node itself first, then the nodes of each
child subtree in order (depth-first).  Used as the order-insensitive spec-side
enumeration of a tree's nodes. -/
def Thought.allNodes : Thought → List Thought
  | ⟨i, c, p, s, d, dep, ca, cs, pa⟩ => ⟨i, c, p, s, d, dep, ca, cs, pa⟩ :: allNodesList cs

def allNodesList : List Thought → List Thought
  | [] => []
  | t :: ts => t.allNodes ++ allNodesList ts

end

/-- `models.Session` (session.go).  Timestamps are `Nat` ticks. -/
structure Session where
  id : String
  userID : String
  rootThought : Option Thought
  context : List String
  createdAt : Nat
  updatedAt : Nat
  isActive : Bool
deriving DecidableEq

/-- `models.SessionMetadata` (session.go).  `Directions` is `nil` in the Go
zero value; both `nil` and an allocated empty slice are the empty list here. -/
structure SessionMetadata where
  totalThoughts : Nat
  maxDepth : Nat
  directions : List String
deriving DecidableEq

/-- Partial update payload accepted by `Session.ApplyThoughtUpdate`.
Modelled from the spec: the declaration of `models.ThoughtUpdate` is not
among the provided sources; per §4.3 the update "carries optional new
content and/or optional new Direction". -/
structure ThoughtUpdate where
  content : Option String
  direction : Option Direction
deriving DecidableEq

/-- `models.NewThought` (thought.go).  The generated UUID and `time.Now()`
are passed in as `id` and `now`. -/
def NewThought (id : String) (content : String) (sessionID : String)
    (direction : Direction) (now : Nat) : Thought :=
  ⟨id, content, none, sessionID, direction, 0, now, [], [content]⟩

/-- `models.NewSession` (session.go).  The generated session / root-thought
UUIDs and `time.Now()` are passed in. -/
def NewSession (sessionID : String) (rootThoughtID : String) (userID : String)
    (initialConcept : String) (now : Nat) : Session :=
  let direction : Direction := ⟨Broad, "Root", "Initial concept", [], 0⟩
  { id := sessionID
    userID := userID
    rootThought := some (NewThought rootThoughtID initialConcept sessionID direction now)
    context := [initialConcept]
    createdAt := now
    updatedAt := now
    isActive := true }

/-- `Thought.AddChild` (thought.go): sets the child's parentID/depth/path,
assigns `createdAt` if unset, and appends the child to `children`.  The Go
nil-receiver/nil-argument no-ops are not representable and are dropped. -/
def Thought.addChild (t : Thought) (child : Thought) (now : Nat) : Thought :=
  let child2 :=
    ⟨child.id, child.content, some t.id, child.sessionID, child.direction, t.depth + 1,
      if child.createdAt = 0 then now else child.createdAt, child.children,
      if 0 < t.path.length then t.path ++ [child.content] else [child.content]⟩
  t.withChildren (t.children ++ [child2])

mutual

/-- Body of the BFS loop of `Session.NormalizeTree` (session.go), rendered
recursively: each dequeued node's fields are already final and each child's
parentID/depth/path are derived from them before the child is processed, so
the BFS processing order is immaterial and a top-down recursion computes the
same tree.  `pid`, `d` and `newPath` are the values the loop assigned to the
current node. -/
def normalizeLoop : Thought → Option String → Nat → List String → Thought
  | ⟨i, c, _, sid, dir, _, ca, cs, _⟩, pid, d, newPath =>
    ⟨i, c, pid, sid, dir, d, ca, normalizeLoopChildren i d newPath cs, newPath⟩

def normalizeLoopChildren (pid : String) (d : Nat) (ppath : List String) :
    List Thought → List Thought
  | [] => []
  | child :: rest =>
    normalizeLoop child (some pid) (d + 1)
        (if 0 < ppath.length then ppath ++ [child.content] else [child.content]) ::
      normalizeLoopChildren pid d ppath rest

end

/-- `Session.NormalizeTree` (session.go): no-op without a root; otherwise the
root gets `parentID = none`, `depth = 0`, `path = [content]` and every child
is re-derived from its parent. -/
def Session.normalizeTree (s : Session) : Session :=
  match s.rootThought with
  | none => s
  | some root =>
    { s with rootThought := some (normalizeLoop root none 0 [root.content]) }

mutual

/-- `storage.normalizeThoughtTree` (session_store.go): recursively re-derives
path/parentID/depth from the parent.  `parent` carries the (already rewritten)
parent node, `parentPath` the parent's path; `none` renders Go `nil`.  In Go,
`pid := parent.ID` inside the `parentPath != nil` branch dereferences `parent`;
all call sites pass both as nil or both as non-nil, and the total rendering
via `Option.map` agrees there. -/
def normalizeThoughtTree : Thought → Option Thought → Option (List String) → Thought
  | ⟨i, c, _, sid, dir, _, ca, cs, _⟩, parent, parentPath =>
    let newPath : List String :=
      match parentPath with
      | some pp => pp ++ [c]
      | none => [c]
    let newPid : Option String :=
      match parentPath with
      | some _ => parent.map Thought.id
      | none => none
    let newDepth : Nat :=
      match parent with
      | none => 0
      | some p => p.depth + 1
    ⟨i, c, newPid, sid, dir, newDepth, ca,
      normalizeThoughtTreeList cs ⟨i, c, newPid, sid, dir, newDepth, ca, cs, newPath⟩ newPath,
      newPath⟩

def normalizeThoughtTreeList (cs : List Thought) (parent : Thought) (ppath : List String) :
    List Thought :=
  match cs with
  | [] => []
  | child :: rest =>
    normalizeThoughtTree child (some parent) (some ppath) ::
      normalizeThoughtTreeList rest parent ppath

end

/-- Normalization-independent projection of a thought tree: the fields that
no normalization pass may change (ids, contents, session ids, directions,
creation times, and the parent/child structure). -/
inductive TreeShape : Type where
  | mk (id : String) (content : String) (sessionID : String) (direction : Direction)
      (createdAt : Nat) (children : List TreeShape) : TreeShape

mutual

def Thought.strip : Thought → TreeShape
  | ⟨i, c, _, sid, dir, _, ca, cs, _⟩ => ⟨i, c, sid, dir, ca, stripList cs⟩

def stripList : List Thought → List TreeShape
  | [] => []
  | t :: ts => t.strip :: stripList ts

end

mutual

/-- Claim-side invariant of §3/§8: given the list `anc` of the contents of a
node's ancestors (root first), the node's `path` is `anc` followed by its own
content and its `depth` is the number of its ancestors; recursively so for
every descendant. -/
def pathDepthOkB : Thought → List String → Bool
  | ⟨_, c, _, _, _, dep, _, cs, pa⟩, anc =>
    decide (pa = anc ++ [c]) && decide (dep = anc.length) &&
      pathDepthOkListB cs (anc ++ [c])

def pathDepthOkListB : List Thought → List String → Bool
  | [], _ => true
  | t :: ts, anc => pathDepthOkB t anc && pathDepthOkListB ts anc

end

def PathDepthOk (t : Thought) (anc : List String) : Prop :=
  pathDepthOkB t anc = true

/-- Subtree at a position (a list of child indices from the given node). -/
def Thought.getAt : Thought → List Nat → Option Thought
  | t, [] => some t
  | t, i :: rest =>
    match t.children[i]? with
    | some c => c.getAt rest
    | none => none

/-- Rewrites the subtree at a position; `none` if the position is invalid.
This is the pure rendering of Go's in-place mutation through a pointer into
the tree. -/
def Thought.modifyAt : Thought → List Nat → (Thought → Thought) → Option Thought
  | t, [], f => some (f t)
  | t, i :: rest, f =>
    match t.children[i]? with
    | some c => (c.modifyAt rest f).map (fun c2 => t.withChildren (t.children.set i c2))
    | none => none

/-- Aggregate size of the thought trees in a BFS queue (termination measure). -/
def queueSizeT (q : List (List Nat × Thought)) : Nat :=
  sizeTList (q.map Prod.snd)

/-- The breadth-first traversal shared by `GetMetadata`, `GetThoughtTree` and
`FindThought` (session.go): dequeue a node, emit it, enqueue its children in
order.  First components are ghost positions recording where each node sits
in the original tree (Go works with pointers instead); they do not influence
the traversal. -/
def bfsAux : List (List Nat × Thought) → List (List Nat × Thought)
  | [] => []
  | (p, t) :: rest =>
    (p, t) :: bfsAux (rest ++ t.children.enum.map (fun ic => (p ++ [ic.1], ic.2)))
termination_by q => queueSizeT q
decreasing_by
  have happ : ∀ a b : List Thought, sizeTList (a ++ b) = sizeTList a + sizeTList b := by
    intro a b
    induction a with
    | nil => simp [sizeTList]
    | cons x xs ih =>
      show x.sizeT + sizeTList (xs ++ b) = x.sizeT + sizeTList xs + sizeTList b
      omega
  unfold queueSizeT
  rw [List.map_append, List.map_map, happ]
  rw [show (Prod.snd ∘ fun ic : Nat × Thought => (p ++ [ic.1], ic.2)) = Prod.snd from rfl]
  rw [List.enum_map_snd]
  rw [show sizeTList (List.map Prod.snd ((p, t) :: rest)) =
    t.sizeT + sizeTList (rest.map Prod.snd) from rfl]
  have hsz : t.sizeT = 1 + sizeTList t.children := by cases t; rfl
  omega

/-- BFS node listing of a whole tree, starting at the root position `[]`. -/
def Thought.bfsNodes (t : Thought) : List (List Nat × Thought) :=
  bfsAux [([], t)]

/-- Direction label used by `GetMetadata`: the direction's title, or its type
when the title is empty. -/
def labelKey (t : Thought) : String :=
  if t.direction.title = "" then t.direction.type else t.direction.title

/-- `Session.GetMetadata` (session.go): BFS count of nodes, running maximum of
the stored depths, and the set of non-empty direction labels.  Go collects the
labels in a map and sorts the keys; the set is modelled as a first-occurrence
dedup accumulator, sorted the same way (`sort.Strings` = lexicographic). -/
def Session.getMetadata (s : Session) : SessionMetadata :=
  match s.rootThought with
  | none => ⟨0, 0, []⟩
  | some root =>
    let nodes := root.bfsNodes.map Prod.snd
    let total := nodes.length
    let maxDepth := nodes.foldl (fun m t => if t.depth > m then t.depth else m) 0
    let keys := nodes.foldl
      (fun acc t => if labelKey t ≠ "" ∧ labelKey t ∉ acc then acc ++ [labelKey t] else acc) []
    ⟨total, maxDepth, keys.insertionSort (· ≤ ·)⟩

/-- `Session.GetThoughtTree` (session.go) builds a map from node id to node by
BFS; a Go map assignment overwrites, so a lookup returns the last BFS entry
with the given id.  The result here is that entry's ghost position. -/
def Session.getThoughtTreePath (s : Session) (id : String) : Option (List Nat) :=
  match s.rootThought with
  | none => none
  | some root => ((root.bfsNodes.filter (fun e => e.2.id = id)).getLast?).map Prod.fst

/-- `Session.FindThought` (session.go): BFS for the first node with the given
id; returns its ghost position.  (Go also returns the parent pointer tracked
in `parentMap`; for the id-distinct trees the claims quantify over, that
parent is exactly the node at the position's prefix.) -/
def Session.findThoughtPath (s : Session) (thoughtID : String) : Option (List Nat) :=
  if s.rootThought = none ∨ trimSpace thoughtID = "" then none
  else
    match s.rootThought with
    | none => none
    | some root => (root.bfsNodes.find? (fun e => e.2.id = thoughtID)).map Prod.fst

/-- `Thought.RemoveChildByID`.  Modelled from the spec: the method's
declaration is not among the provided sources; per §4.1 it "removes the first
direct child whose id matches; returns whether a removal occurred.  Does not
search grandchildren."  `none` renders the `false` return. -/
def removeFirstChildByID : List Thought → String → Option (List Thought)
  | [], _ => none
  | c :: rest, tid =>
    if c.id = tid then some rest else (removeFirstChildByID rest tid).map (c :: ·)

/-- Removal of the first child with id `tid` from the node at position `pos`
(the parent of the node being removed); the pure rendering of
`parent.RemoveChildByID(thoughtID)` through a `FindThought` parent pointer. -/
def Thought.removeAtParent : Thought → List Nat → String → Option Thought
  | t, [], tid => (removeFirstChildByID t.children tid).map t.withChildren
  | t, i :: rest, tid =>
    match t.children[i]? with
    | some c => (c.removeAtParent rest tid).map (fun c2 => t.withChildren (t.children.set i c2))
    | none => none

/-- `Session.RemoveThought` (session.go). -/
def Session.removeThought (s : Session) (thoughtID : String) (now : Nat) :
    Except Err Session :=
  if trimSpace thoughtID = "" then .error .invalidRequest
  else
    match s.rootThought with
    | none => .error .thoughtNotFound
    | some root =>
      if root.id = thoughtID then .ok { s with rootThought := none, updatedAt := now }
      else
        match Session.findThoughtPath s thoughtID with
        | none => .error .thoughtNotFound
        | some p =>
          match root.removeAtParent p.dropLast thoughtID with
          | none => .error .thoughtNotFound
          | some root2 =>
            .ok (Session.normalizeTree
              { s with rootThought := some root2, updatedAt := now })

/-- `Session.ApplyThoughtUpdate` (session.go): locate the target, apply the
present fields in place, re-normalize, stamp `updatedAt`, and return the
(post-normalization) target node.  The `update == nil` guard is not
representable (the payload is a value here).  The two `.error .thoughtNotFound`
fallbacks for an invalid position are unreachable: `findThoughtPath` only
returns positions that are valid in the tree. -/
def Session.applyThoughtUpdate (s : Session) (thoughtID : String) (update : ThoughtUpdate)
    (now : Nat) : Except Err (Thought × Session) :=
  if trimSpace thoughtID = "" then .error .invalidRequest
  else
    match s.rootThought with
    | none => .error .thoughtNotFound
    | some root =>
      match Session.findThoughtPath s thoughtID with
      | none => .error .thoughtNotFound
      | some p =>
        let apply1 := fun (target : Thought) =>
          match update.content with
          | some c => target.withContent (trimSpace c)
          | none => target
        let apply2 := fun (target : Thought) =>
          match update.direction with
          | some d => target.withDirection d
          | none => target
        match root.modifyAt p (fun target => apply2 (apply1 target)) with
        | none => .error .thoughtNotFound
        | some root2 =>
          let s2 := Session.normalizeTree { s with rootThought := some root2, updatedAt := now }
          match s2.rootThought with
          | none => .error .thoughtNotFound
          | some nroot =>
            match nroot.getAt p with
            | none => .error .thoughtNotFound
            | some target2 => .ok (target2, s2)

/-- Ids of all nodes of a thought tree. -/
def Thought.allIds (t : Thought) : List String :=
  t.allNodes.map Thought.id

/-- The thought ids in a tree are pairwise distinct (always true for the
UUID-generated ids of the real system; a hypothesis for theorems whose Go
counterpart identifies nodes by id). -/
def NodupIds (t : Thought) : Prop :=
  t.allIds.Nodup

/-- Serialized (JSON) form of a `Thought`.  `encoding/json` keeps every
exported field — including the redundant `Depth`/`Path`/`ParentID` — and
skips the unexported `parent` pointer. -/
inductive ThoughtDoc : Type where
  | mk (id : String) (content : String) (parentID : Option String) (sessionID : String)
      (direction : Direction) (depth : Nat) (createdAt : Nat)
      (children : List ThoughtDoc) (path : List String) : ThoughtDoc

mutual

def encodeThought : Thought → ThoughtDoc
  | ⟨i, c, p, s, d, dep, ca, cs, pa⟩ => ⟨i, c, p, s, d, dep, ca, encodeThoughtList cs, pa⟩

def encodeThoughtList : List Thought → List ThoughtDoc
  | [] => []
  | t :: ts => encodeThought t :: encodeThoughtList ts

end

mutual

def decodeThought : ThoughtDoc → Thought
  | ⟨i, c, p, s, d, dep, ca, cs, pa⟩ => ⟨i, c, p, s, d, dep, ca, decodeThoughtList cs, pa⟩

def decodeThoughtList : List ThoughtDoc → List Thought
  | [] => []
  | d :: ds => decodeThought d :: decodeThoughtList ds

end

mutual

def ThoughtDoc.decEq : (a b : ThoughtDoc) → Decidable (a = b)
  | ⟨i1, c1, p1, s1, d1, dp1, ca1, cs1, pa1⟩, ⟨i2, c2, p2, s2, d2, dp2, ca2, cs2, pa2⟩ =>
    if h : i1 = i2 ∧ c1 = c2 ∧ p1 = p2 ∧ s1 = s2 ∧ d1 = d2 ∧ dp1 = dp2 ∧ ca1 = ca2 ∧ pa1 = pa2 then
      match ThoughtDoc.decEqList cs1 cs2 with
      | isTrue hcs => isTrue (by
          obtain ⟨h1, h2, h3, h4, h5, h6, h7, h8⟩ := h
          subst h1 h2 h3 h4 h5 h6 h7 h8 hcs
          rfl)
      | isFalse hcs => isFalse (by
          intro he
          apply hcs
          injection he)
    else
      isFalse (by
        intro he
        apply h
        injection he with e1 e2 e3 e4 e5 e6 e7 e8 e9
        exact ⟨e1, e2, e3, e4, e5, e6, e7, e9⟩)

def ThoughtDoc.decEqList : (a b : List ThoughtDoc) → Decidable (a = b)
  | [], [] => isTrue rfl
  | [], _ :: _ => isFalse (by simp)
  | _ :: _, [] => isFalse (by simp)
  | a :: as, b :: bs =>
    match ThoughtDoc.decEq a b, ThoughtDoc.decEqList as bs with
    | isTrue h1, isTrue h2 => isTrue (by rw [h1, h2])
    | isFalse h1, _ => isFalse (by simp [h1])
    | _, isFalse h2 => isFalse (by simp [h2])

end

instance : DecidableEq ThoughtDoc := ThoughtDoc.decEq

/-- Serialized (JSON) form of a `Session`. -/
structure SessionDoc where
  id : String
  userID : String
  rootThought : Option ThoughtDoc
  context : List String
  createdAt : Nat
  updatedAt : Nat
  isActive : Bool
deriving DecidableEq

/-- `json.Marshal` of a session (field-for-field document). -/
def encodeSession (s : Session) : SessionDoc :=
  ⟨s.id, s.userID, s.rootThought.map encodeThought, s.context, s.createdAt, s.updatedAt,
    s.isActive⟩

/-- `storage.decodeSession` (session_store.go): unmarshal, then
`normalizeThoughtTree(session.RootThought, nil, nil)` (a no-op on a nil root). -/
def decodeSession (doc : SessionDoc) : Session :=
  { id := doc.id
    userID := doc.userID
    rootThought := (doc.rootThought.map decodeThought).map
      (fun r => normalizeThoughtTree r none none)
    context := doc.context
    createdAt := doc.createdAt
    updatedAt := doc.updatedAt
    isActive := doc.isActive }

/-- `storage.cloneSession` (session_store.go): deep copy via a
marshal/decode round trip (which also renormalizes the tree). -/
def cloneSession (s : Session) : Session :=
  decodeSession (encodeSession s)

/-- Go map assignment `m[k] = v` on an association list.  Go map iteration
order is unspecified, so no theorem depends on entry order. -/
def mapSet {α : Type} (m : List (String × α)) (k : String) (v : α) : List (String × α) :=
  (k, v) :: m.filter (fun e => e.1 != k)

/-- `storage.InMemorySessionStore`: a map from session id to stored session. -/
structure InMemorySessionStore where
  sessions : List (String × Session)
deriving DecidableEq

/-- `InMemorySessionStore.Save`: fails when the id already has a record
(Go: the ad-hoc `"session %s already exists"` error), otherwise stores a
deep copy. -/
def InMemorySessionStore.save (st : InMemorySessionStore) (s : Session) :
    Except Err InMemorySessionStore :=
  if (st.sessions.lookup s.id).isSome then .error .alreadyExists
  else .ok ⟨mapSet st.sessions s.id (cloneSession s)⟩

/-- `InMemorySessionStore.Get`: `ErrSessionNotFound` when absent, otherwise a
deep copy of the stored session. -/
def InMemorySessionStore.get (st : InMemorySessionStore) (sessionID : String) :
    Except Err Session :=
  match st.sessions.lookup sessionID with
  | none => .error .sessionNotFound
  | some v => .ok (cloneSession v)

/-- `InMemorySessionStore.Update`: `ErrSessionNotFound` when the id was never
saved, otherwise replaces the record with a deep copy. -/
def InMemorySessionStore.update (st : InMemorySessionStore) (s : Session) :
    Except Err InMemorySessionStore :=
  if (st.sessions.lookup s.id).isSome then .ok ⟨mapSet st.sessions s.id (cloneSession s)⟩
  else .error .sessionNotFound

/-- `InMemorySessionStore.GetExpiredSessions`: every stored session whose
`updatedAt` is strictly before the threshold, as deep copies. -/
def InMemorySessionStore.getExpiredSessions (st : InMemorySessionStore) (before : Nat) :
    List Session :=
  (st.sessions.filter (fun e => decide (e.2.updatedAt < before))).map
    (fun e => cloneSession e.2)

/-- `storage.safeUpdatedAt` (session_store.go): `updatedAt` if set, else
`createdAt` if set, else `time.Now()` — never the zero time. -/
def safeUpdatedAt (s : Session) (now : Nat) : Nat :=
  if s.updatedAt ≠ 0 then s.updatedAt
  else if s.createdAt ≠ 0 then s.createdAt
  else now

/-- `storage.FileSessionStore`: one serialized document per session id (the
`<id>.json` files), plus the two derived in-memory indexes. -/
structure FileSessionStore where
  files : List (String × SessionDoc)
  userIndex : List (String × List String)
  sessionIndex : List (String × Nat)
deriving DecidableEq

/-- `FileSessionStore.indexSessionLocked`: retract the session id from any
other user's id set, then (unless the user id is empty) add it to its user's
set, and record `safeUpdatedAt` in the session index. -/
def FileSessionStore.indexSessionLocked (fs : FileSessionStore) (s : Session) (now : Nat) :
    FileSessionStore :=
  let ui := fs.userIndex.map (fun e =>
    if s.id ∈ e.2 ∧ e.1 ≠ s.userID then (e.1, e.2.filter (fun x => x != s.id)) else e)
  if s.userID = "" then
    { fs with userIndex := ui, sessionIndex := mapSet fs.sessionIndex s.id (safeUpdatedAt s now) }
  else
    let ids := (ui.lookup s.userID).getD []
    { fs with
      userIndex := mapSet ui s.userID (if s.id ∈ ids then ids else ids ++ [s.id])
      sessionIndex := mapSet fs.sessionIndex s.id (safeUpdatedAt s now) }

/-- `FileSessionStore.Save`: fails when the session file already exists,
otherwise writes the serialized document and refreshes the indexes.  I/O
failures are not modelled. -/
def FileSessionStore.save (fs : FileSessionStore) (s : Session) (now : Nat) :
    Except Err FileSessionStore :=
  if (fs.files.lookup s.id).isSome then .error .alreadyExists
  else
    .ok (FileSessionStore.indexSessionLocked
      { fs with files := mapSet fs.files s.id (encodeSession s) } s now)

/-- `FileSessionStore.Get`: `ErrSessionNotFound` when the file is absent,
otherwise decode (which renormalizes the tree). -/
def FileSessionStore.get (fs : FileSessionStore) (sessionID : String) :
    Except Err Session :=
  match fs.files.lookup sessionID with
  | none => .error .sessionNotFound
  | some doc => .ok (decodeSession doc)

/-- `FileSessionStore.Update`: writes the file whether or not it existed
(lenient: silently creates a missing record) and refreshes the indexes. -/
def FileSessionStore.update (fs : FileSessionStore) (s : Session) (now : Nat) :
    Except Err FileSessionStore :=
  .ok (FileSessionStore.indexSessionLocked
    { fs with files := mapSet fs.files s.id (encodeSession s) } s now)

/-- `FileSessionStore.GetExpiredSessions`: candidate ids whose indexed
timestamp is zero or before the threshold, each then re-read from disk and
kept only if the decoded `updatedAt` is strictly before the threshold. -/
def FileSessionStore.getExpiredSessions (fs : FileSessionStore) (before : Nat) :
    List Session :=
  let candidateIDs := (fs.sessionIndex.filter
    (fun e => decide (e.2 = 0 ∨ e.2 < before))).map Prod.fst
  candidateIDs.filterMap (fun sid =>
    match fs.files.lookup sid with
    | none => none
    | some doc =>
      let sess := decodeSession doc
      if sess.updatedAt < before then some sess else none)

/-- `services.SessionManager` (session_manager.go) over the in-memory
backend: the store plus the read-through cache.  Go caches pointers (so an
`AddThoughtToSession` mutates the cached object even before `UpdateSession`);
here the cache holds values and is refreshed where the code reassigns it. -/
structure SessionManager where
  store : InMemorySessionStore
  cache : List (String × Session)
deriving DecidableEq

/-- `SessionManager.GetSession`: empty id is invalid; cache hit returns the
cached session; otherwise load from the store and populate the cache. -/
def SessionManager.getSession (sm : SessionManager) (sessionID : String) :
    Except Err (Session × SessionManager) :=
  if sessionID = "" then .error .invalidRequest
  else
    match sm.cache.lookup sessionID with
    | some s => .ok (s, sm)
    | none =>
      match sm.store.get sessionID with
      | .error e => .error e
      | .ok s => .ok (s, { sm with cache := mapSet sm.cache sessionID s })

/-- `SessionManager.UpdateSession`: stamp `updatedAt = now`, persist through
the store, refresh the cache entry. -/
def SessionManager.updateSession (sm : SessionManager) (s : Session) (now : Nat) :
    Except Err SessionManager :=
  let s2 := { s with updatedAt := now }
  match sm.store.update s2 with
  | .error e => .error e
  | .ok st => .ok { store := st, cache := mapSet sm.cache s2.id s2 }

/-- `SessionManager.CreateSession`: build a fresh session, save it, cache it.
The generated UUIDs and `time.Now()` are passed in. -/
def SessionManager.createSession (sm : SessionManager) (userID : String)
    (initialConcept : String) (sessionID : String) (rootThoughtID : String) (now : Nat) :
    Except Err (Session × SessionManager) :=
  if initialConcept = "" then .error .invalidRequest
  else
    let session := NewSession sessionID rootThoughtID userID initialConcept now
    match sm.store.save session with
    | .error e => .error e
    | .ok st => .ok (session, { store := st, cache := mapSet sm.cache session.id session })

/-- `SessionManager.AddThoughtToSession`: load the session; a session with no
root adopts the thought as root; otherwise resolve the parent — the node the
thought's `parentId` names in `GetThoughtTree`, defaulting to the root when
absent or unresolved — attach via `AddChild`, and persist via
`UpdateSession`.  (Go's `parent != nil` else-branch is unreachable: the root
is non-nil in that branch.) -/
def SessionManager.addThoughtToSession (sm : SessionManager) (sessionID : String)
    (thought : Thought) (now : Nat) : Except Err SessionManager :=
  match sm.getSession sessionID with
  | .error e => .error e
  | .ok (session, sm1) =>
    let thought2 := thought.withSessionID session.id
    match session.rootThought with
    | none => sm1.updateSession { session with rootThought := some thought2 } now
    | some root =>
      let parentPath : List Nat :=
        match thought2.parentID with
        | some pid =>
          match Session.getThoughtTreePath session pid with
          | some p => p
          | none => []
        | none => []
      let root2 := (root.modifyAt parentPath (fun par => par.addChild thought2 now)).getD root
      sm1.updateSession { session with rootThought := some root2 } now

/-- Length limits of `internal/utils/validation.go` that the thought-update
validation path reads (`utf8.RuneCountInString` = `String.length`). -/
def MaxDirectionTitleLength : Nat := 120

def MaxDirectionDescLength : Nat := 600

def MaxKeywordLength : Nat := 50

def MaxDirectionKeywords : Nat := 16

def MaxThoughtContentLength : Nat := 400

/-- `utils.allowedDirectionTypes` (a set in Go; membership only). -/
def allowedDirectionTypes : List DirectionType :=
  [Broad, Deep, Lateral, Critical]

/-- `utils.ParseDirectionType`: trim, lower-case, require a supported type.
Validation errors all wrap `ErrInvalidRequest`. -/
def ParseDirectionType (value : String) : Except Err DirectionType :=
  let normalized := toLowerStr (trimSpace value)
  if normalized = "" then .error .invalidRequest
  else if normalized ∈ allowedDirectionTypes then .ok normalized
  else .error .invalidRequest

/-- Loop body of `utils.NormalizeKeywords`: trim, drop empties, bound each
keyword's length and the total count. -/
def normalizeKeywordsLoop (cleaned : List String) : List String → Except Err (List String)
  | [] => .ok cleaned
  | item :: rest =>
    let trimmed := trimSpace item
    if trimmed = "" then normalizeKeywordsLoop cleaned rest
    else if trimmed.length > MaxKeywordLength then .error .invalidRequest
    else
      let cleaned2 := cleaned ++ [trimmed]
      if cleaned2.length > MaxDirectionKeywords then .error .invalidRequest
      else normalizeKeywordsLoop cleaned2 rest

def NormalizeKeywords (items : List String) : Except Err (List String) :=
  normalizeKeywordsLoop [] items

/-- `utils.ValidateDirection`: normalize the type, require a non-empty
bounded title, bound the description, clean the keywords, require relevance
in `[0, 1]`.  Go mutates the argument; the sanitized value is returned. -/
def ValidateDirection (direction : Direction) : Except Err Direction :=
  match ParseDirectionType direction.type with
  | .error e => .error e
  | .ok parsedType =>
    let title := trimSpace direction.title
    if title = "" then .error .invalidRequest
    else if title.length > MaxDirectionTitleLength then .error .invalidRequest
    else
      let desc := trimSpace direction.description
      if desc.length > MaxDirectionDescLength then .error .invalidRequest
      else
        match NormalizeKeywords direction.keywords with
        | .error e => .error e
        | .ok keywords =>
          if direction.relevance < 0 ∨ direction.relevance > 1 then .error .invalidRequest
          else .ok ⟨parsedType, title, desc, keywords, direction.relevance⟩

/-- `utils.ValidateThoughtUpdate`: requires at least one of content/direction
to be present; trims and bounds a present content; validates a present
direction.  The Go nil-payload guard is not representable. -/
def ValidateThoughtUpdate (update : ThoughtUpdate) : Except Err ThoughtUpdate :=
  if update.content = none ∧ update.direction = none then .error .invalidRequest
  else
    let contentStep : Except Err (Option String) :=
      match update.content with
      | none => .ok none
      | some c =>
        let trimmed := trimSpace c
        if trimmed = "" then .error .invalidRequest
        else if trimmed.length > MaxThoughtContentLength then .error .invalidRequest
        else .ok (some trimmed)
    match contentStep with
    | .error e => .error e
    | .ok content2 =>
      match update.direction with
      | none => .ok ⟨content2, none⟩
      | some d =>
        match ValidateDirection d with
        | .error e => .error e
        | .ok d2 => .ok ⟨content2, some d2⟩

theorem Thought.sizeT_def (t : Thought) : t.sizeT = 1 + sizeTList t.children := by
  cases t
  rfl

theorem Thought.allNodes_def (t : Thought) : t.allNodes = t :: allNodesList t.children := by
  cases t
  rfl

theorem sizeTList_append (a b : List Thought) :
    sizeTList (a ++ b) = sizeTList a + sizeTList b := by
  induction a with
  | nil => simp [sizeTList]
  | cons t ts ih => simp [sizeTList, ih]; omega

theorem Thought.sizeT_pos (t : Thought) : 0 < t.sizeT := by
  rw [Thought.sizeT_def]
  omega

theorem sizeTList_le_of_mem {c : Thought} {cs : List Thought} (h : c ∈ cs) :
    c.sizeT ≤ sizeTList cs := by
  induction cs with
  | nil => cases h
  | cons t ts ih =>
    show c.sizeT ≤ t.sizeT + sizeTList ts
    rcases List.mem_cons.mp h with h1 | h1
    · subst h1
      omega
    · have := ih h1
      omega

theorem Thought.sizeT_lt_of_mem_children {c t : Thought} (h : c ∈ t.children) :
    c.sizeT < t.sizeT := by
  have h1 := sizeTList_le_of_mem h
  rw [Thought.sizeT_def t]
  omega

/-- Structural strong induction for thought trees: to prove `P t` it suffices
to prove it assuming `P` of all direct children. -/
theorem Thought.strongInduction (P : Thought → Prop)
    (step : ∀ t : Thought, (∀ c ∈ t.children, P c) → P t) : ∀ t, P t := by
  have aux : ∀ n : Nat, ∀ t : Thought, t.sizeT ≤ n → P t := by
    intro n
    induction n with
    | zero =>
      intro t ht
      have := Thought.sizeT_pos t
      omega
    | succ n ih =>
      intro t ht
      apply step
      intro c hc
      apply ih
      have := Thought.sizeT_lt_of_mem_children hc
      omega
  intro t
  exact aux t.sizeT t le_rfl

theorem Thought.strip_def (t : Thought) :
    t.strip = ⟨t.id, t.content, t.sessionID, t.direction, t.createdAt, stripList t.children⟩ := by
  cases t
  rfl

theorem stripList_eq_map (cs : List Thought) : stripList cs = cs.map Thought.strip := by
  induction cs with
  | nil => rfl
  | cons t ts ih => simp [stripList, ih]

theorem pathDepthOkListB_iff_forall (cs : List Thought) (anc : List String) :
    pathDepthOkListB cs anc = true ↔ ∀ c ∈ cs, pathDepthOkB c anc = true := by
  induction cs with
  | nil => simp [pathDepthOkListB]
  | cons t ts ih => simp [pathDepthOkListB, ih]

theorem pathDepthOkB_def (t : Thought) (anc : List String) :
    pathDepthOkB t anc =
      (decide (t.path = anc ++ [t.content]) && decide (t.depth = anc.length) &&
        pathDepthOkListB t.children (anc ++ [t.content])) := by
  cases t
  rfl

theorem normalizeLoopChildren_eq_map (pid : String) (d : Nat) (pp : List String)
    (cs : List Thought) :
    normalizeLoopChildren pid d pp cs =
      cs.map (fun child =>
        normalizeLoop child (some pid) (d + 1)
          (if 0 < pp.length then pp ++ [child.content] else [child.content])) := by
  induction cs with
  | nil => rfl
  | cons c rest ih => simp [normalizeLoopChildren, ih]

theorem normalizeLoop_def (t : Thought) (pid : Option String) (d : Nat) (np : List String) :
    normalizeLoop t pid d np =
      ⟨t.id, t.content, pid, t.sessionID, t.direction, d, t.createdAt,
        normalizeLoopChildren t.id d np t.children, np⟩ := by
  cases t
  rfl

theorem normalizeThoughtTreeList_eq_map (cs : List Thought) (parent : Thought)
    (pp : List String) :
    normalizeThoughtTreeList cs parent pp =
      cs.map (fun child => normalizeThoughtTree child (some parent) (some pp)) := by
  induction cs with
  | nil => rfl
  | cons c rest ih => simp [normalizeThoughtTreeList, ih]

theorem normalizeThoughtTree_def (t : Thought) (parent : Option Thought)
    (parentPath : Option (List String)) :
    normalizeThoughtTree t parent parentPath =
      (let newPath : List String :=
        match parentPath with
        | some pp => pp ++ [t.content]
        | none => [t.content]
      let newPid : Option String :=
        match parentPath with
        | some _ => parent.map Thought.id
        | none => none
      let newDepth : Nat :=
        match parent with
        | none => 0
        | some p => p.depth + 1
      ⟨t.id, t.content, newPid, t.sessionID, t.direction, newDepth, t.createdAt,
        normalizeThoughtTreeList t.children
          ⟨t.id, t.content, newPid, t.sessionID, t.direction, newDepth, t.createdAt,
            t.children, newPath⟩ newPath,
        newPath⟩) := by
  cases t
  rfl

theorem content_eq_of_strip_eq {t1 t2 : Thought} (h : t1.strip = t2.strip) :
    t1.content = t2.content := by
  cases t1
  cases t2
  simp only [Thought.strip, TreeShape.mk.injEq] at h
  exact h.2.1

theorem strip_normalizeLoop :
    ∀ (t : Thought) (pid : Option String) (d : Nat) (np : List String),
      (normalizeLoop t pid d np).strip = t.strip := by
  intro t
  induction t using Thought.strongInduction with
  | step t ih =>
    cases t with
    | mk i c p sid dir dep ca cs pa =>
      intro pid d np
      simp only [normalizeLoop, Thought.strip]
      have hcs : stripList (normalizeLoopChildren i d np cs) = stripList cs := by
        rw [normalizeLoopChildren_eq_map, stripList_eq_map, stripList_eq_map, List.map_map]
        apply List.map_congr_left
        intro a ha
        exact ih a (by simpa [Thought.children] using ha) _ _ _
      rw [hcs]

theorem normalizeLoop_path (t : Thought) (pid : Option String) (d : Nat) (np : List String) :
    (normalizeLoop t pid d np).path = np := by
  cases t
  rfl

theorem normalizeLoop_depth (t : Thought) (pid : Option String) (d : Nat) (np : List String) :
    (normalizeLoop t pid d np).depth = d := by
  cases t
  rfl

theorem normalizeLoop_id (t : Thought) (pid : Option String) (d : Nat) (np : List String) :
    (normalizeLoop t pid d np).id = t.id := by
  cases t
  rfl

theorem normalizeLoop_content (t : Thought) (pid : Option String) (d : Nat) (np : List String) :
    (normalizeLoop t pid d np).content = t.content := by
  cases t
  rfl

theorem normalizeLoop_children (t : Thought) (pid : Option String) (d : Nat) (np : List String) :
    (normalizeLoop t pid d np).children = normalizeLoopChildren t.id d np t.children := by
  cases t
  rfl

theorem pathDepthOk_normalizeLoop :
    ∀ (t : Thought) (anc : List String) (pid : Option String),
      PathDepthOk (normalizeLoop t pid anc.length (anc ++ [t.content])) anc := by
  intro t
  induction t using Thought.strongInduction with
  | step t ih =>
    intro anc pid
    unfold PathDepthOk
    rw [pathDepthOkB_def, normalizeLoop_path, normalizeLoop_depth, normalizeLoop_children,
      normalizeLoop_content]
    simp only [Bool.and_eq_true, decide_eq_true_eq]
    refine ⟨⟨by trivial, by trivial⟩, ?_⟩
    rw [pathDepthOkListB_iff_forall]
    intro x hx
    rw [normalizeLoopChildren_eq_map] at hx
    rcases List.mem_map.mp hx with ⟨child, hchild, hxeq⟩
    subst hxeq
    have hlen : 0 < (anc ++ [t.content]).length := by simp
    rw [if_pos hlen]
    have hres := ih child hchild (anc ++ [t.content]) (some t.id)
    unfold PathDepthOk at hres
    simpa using hres

theorem normalizeLoopChildren_congr :
    ∀ (cs1 cs2 : List Thought), stripList cs1 = stripList cs2 →
      (∀ c ∈ cs1, ∀ t2 : Thought, c.strip = t2.strip →
        ∀ pid d np, normalizeLoop c pid d np = normalizeLoop t2 pid d np) →
      ∀ pid d np, normalizeLoopChildren pid d np cs1 = normalizeLoopChildren pid d np cs2 := by
  intro cs1
  induction cs1 with
  | nil =>
    intro cs2 h _ pid d np
    cases cs2 with
    | nil => rfl
    | cons c2 r2 => simp [stripList] at h
  | cons c1 r1 ih =>
    intro cs2 h hpt pid d np
    cases cs2 with
    | nil => simp [stripList] at h
    | cons c2 r2 =>
      simp only [stripList] at h
      injection h with hhd htl
      have hcontent : c1.content = c2.content := content_eq_of_strip_eq hhd
      simp only [normalizeLoopChildren]
      rw [ih r2 htl (fun c hc => hpt c (List.mem_cons_of_mem _ hc)) pid d np]
      rw [hpt c1 (List.mem_cons_self _ _) c2 hhd, hcontent]

theorem normalizeLoop_congr :
    ∀ (t1 t2 : Thought), t1.strip = t2.strip →
      ∀ (pid : Option String) (d : Nat) (np : List String),
        normalizeLoop t1 pid d np = normalizeLoop t2 pid d np := by
  intro t1
  induction t1 using Thought.strongInduction with
  | step t1 ih =>
    cases t1 with
    | mk i1 c1 p1 s1 d1 dp1 ca1 cs1 pa1 =>
      intro t2 h pid d np
      cases t2 with
      | mk i2 c2 p2 s2 d2 dp2 ca2 cs2 pa2 =>
        simp only [Thought.strip] at h
        injection h with h1 h2 h3 h4 h5 h6
        subst h1 h2 h3 h4 h5
        simp only [normalizeLoop]
        rw [normalizeLoopChildren_congr cs1 cs2 h6
          (fun c hc => ih c (by simpa [Thought.children] using hc)) i1 d np]

theorem normalizeLoop_idem (t : Thought) (pid pid2 : Option String) (d d2 : Nat)
    (np np2 : List String) :
    normalizeLoop (normalizeLoop t pid d np) pid2 d2 np2 = normalizeLoop t pid2 d2 np2 :=
  normalizeLoop_congr _ _ (strip_normalizeLoop t pid d np) pid2 d2 np2

theorem Session.normalizeTree_rootThought_none (s : Session) (h : s.rootThought = none) :
    s.normalizeTree = s := by
  unfold Session.normalizeTree
  rw [h]

theorem Session.normalizeTree_rootThought_some (s : Session) (root : Thought)
    (h : s.rootThought = some root) :
    s.normalizeTree = { s with rootThought := some (normalizeLoop root none 0 [root.content]) } := by
  unfold Session.normalizeTree
  rw [h]

theorem Session.normalizeTree_idem (s : Session) :
    s.normalizeTree.normalizeTree = s.normalizeTree := by
  cases hroot : s.rootThought with
  | none =>
    rw [Session.normalizeTree_rootThought_none s hroot]
    rw [Session.normalizeTree_rootThought_none s hroot]
  | some root =>
    rw [Session.normalizeTree_rootThought_some s root hroot]
    rw [Session.normalizeTree_rootThought_some _ (normalizeLoop root none 0 [root.content]) rfl]
    simp only [normalizeLoop_content]
    rw [normalizeLoop_idem]

theorem queueSizeT_append (a b : List (List Nat × Thought)) :
    queueSizeT (a ++ b) = queueSizeT a + queueSizeT b := by
  simp [queueSizeT, sizeTList_append]

theorem queueSizeT_enum_children (p : List Nat) (t : Thought) :
    queueSizeT (t.children.enum.map (fun ic => (p ++ [ic.1], ic.2))) =
      sizeTList t.children := by
  unfold queueSizeT
  rw [List.map_map]
  rw [show (Prod.snd ∘ fun ic : Nat × Thought => (p ++ [ic.1], ic.2)) = Prod.snd from rfl]
  rw [List.enum_map_snd]

theorem allNodesList_append (a b : List Thought) :
    allNodesList (a ++ b) = allNodesList a ++ allNodesList b := by
  induction a with
  | nil => simp [allNodesList]
  | cons t ts ih => simp [allNodesList, ih]

theorem enum_children_map_snd (p : List Nat) (cs : List Thought) :
    (cs.enum.map (fun ic => (p ++ [ic.1], ic.2))).map Prod.snd = cs := by
  rw [List.map_map]
  rw [show (Prod.snd ∘ fun ic : Nat × Thought => (p ++ [ic.1], ic.2)) = Prod.snd from rfl]
  exact List.enum_map_snd cs

theorem bfsAux_nil : bfsAux [] = [] := by
  rw [bfsAux]

theorem bfsAux_cons (p : List Nat) (t : Thought) (rest : List (List Nat × Thought)) :
    bfsAux ((p, t) :: rest) =
      (p, t) :: bfsAux (rest ++ t.children.enum.map (fun ic => (p ++ [ic.1], ic.2))) := by
  rw [bfsAux]

theorem bfsAux_map_snd_perm :
    ∀ q : List (List Nat × Thought),
      List.Perm ((bfsAux q).map Prod.snd) (allNodesList (q.map Prod.snd)) := by
  have aux : ∀ (n : Nat) (q : List (List Nat × Thought)), queueSizeT q ≤ n →
      List.Perm ((bfsAux q).map Prod.snd) (allNodesList (q.map Prod.snd)) := by
    intro n
    induction n with
    | zero =>
      intro q hq
      cases q with
      | nil => simp [bfsAux_nil, allNodesList]
      | cons e rest =>
        exfalso
        have h1 : 0 < e.2.sizeT := Thought.sizeT_pos e.2
        have h2 : queueSizeT (e :: rest) = e.2.sizeT + queueSizeT rest := by
          simp [queueSizeT, sizeTList]
        omega
    | succ n ih =>
      intro q hq
      cases q with
      | nil => simp [bfsAux_nil, allNodesList]
      | cons e rest =>
        obtain ⟨p, t⟩ := e
        rw [bfsAux_cons]
        have hmeasure :
            queueSizeT (rest ++ t.children.enum.map (fun ic => (p ++ [ic.1], ic.2))) ≤ n := by
          rw [queueSizeT_append, queueSizeT_enum_children]
          have h2 : queueSizeT ((p, t) :: rest) = t.sizeT + queueSizeT rest := by
            simp [queueSizeT, sizeTList]
          have h3 := Thought.sizeT_def t
          omega
        have hperm := ih _ hmeasure
        rw [List.map_append, enum_children_map_snd, allNodesList_append] at hperm
        simp only [List.map_cons, allNodesList]
        rw [Thought.allNodes_def]
        have step1 := List.Perm.cons t hperm
        have step2 := List.Perm.cons t
          (@List.perm_append_comm _ (allNodesList (rest.map Prod.snd))
            (allNodesList t.children))
        exact step1.trans step2
  intro q
  exact aux (queueSizeT q) q le_rfl

/-- The node multiset visited by the BFS is exactly the tree's node list. -/
theorem bfsNodes_map_snd_perm (t : Thought) :
    List.Perm (t.bfsNodes.map Prod.snd) t.allNodes := by
  have h := bfsAux_map_snd_perm [([], t)]
  simpa [Thought.bfsNodes, allNodesList] using h

theorem Thought.getAt_snoc {r t c : Thought} {p : List Nat} {i : Nat}
    (h1 : r.getAt p = some t) (h2 : t.children[i]? = some c) :
    r.getAt (p ++ [i]) = some c := by
  induction p generalizing r with
  | nil =>
    simp only [Thought.getAt] at h1
    cases h1
    simp [Thought.getAt, h2]
  | cons j rest ih =>
    cases hj : r.children[j]? with
    | none =>
      simp only [Thought.getAt, hj] at h1
      exact absurd h1 (by simp)
    | some cj =>
      simp only [Thought.getAt, hj] at h1
      simp only [List.cons_append, Thought.getAt, hj]
      exact ih h1

/-- Every BFS entry's ghost position is valid: the tree really has that node
at that position. -/
theorem bfsAux_valid (r : Thought) :
    ∀ q : List (List Nat × Thought), (∀ e ∈ q, r.getAt e.1 = some e.2) →
      ∀ e ∈ bfsAux q, r.getAt e.1 = some e.2 := by
  have aux : ∀ (n : Nat) (q : List (List Nat × Thought)), queueSizeT q ≤ n →
      (∀ e ∈ q, r.getAt e.1 = some e.2) → ∀ e ∈ bfsAux q, r.getAt e.1 = some e.2 := by
    intro n
    induction n with
    | zero =>
      intro q hq hvalid e he
      cases q with
      | nil => rw [bfsAux_nil] at he; cases he
      | cons e0 rest =>
        exfalso
        have h1 : 0 < e0.2.sizeT := Thought.sizeT_pos e0.2
        have h2 : queueSizeT (e0 :: rest) = e0.2.sizeT + queueSizeT rest := by
          simp [queueSizeT, sizeTList]
        omega
    | succ n ih =>
      intro q hq hvalid e he
      cases q with
      | nil => rw [bfsAux_nil] at he; cases he
      | cons e0 rest =>
        obtain ⟨p, t⟩ := e0
        rw [bfsAux_cons] at he
        rcases List.mem_cons.mp he with he1 | he1
        · subst he1
          exact hvalid _ (List.mem_cons_self _ _)
        · have hmeasure :
              queueSizeT (rest ++ t.children.enum.map (fun ic => (p ++ [ic.1], ic.2))) ≤ n := by
            rw [queueSizeT_append, queueSizeT_enum_children]
            have h2 : queueSizeT ((p, t) :: rest) = t.sizeT + queueSizeT rest := by
              simp [queueSizeT, sizeTList]
            have h3 := Thought.sizeT_def t
            omega
          refine ih _ hmeasure ?_ e he1
          intro e2 he2
          rcases List.mem_append.mp he2 with he3 | he3
          · exact hvalid _ (List.mem_cons_of_mem _ he3)
          · rcases List.mem_map.mp he3 with ⟨ic, hic, he4⟩
            subst he4
            obtain ⟨n1, c1⟩ := ic
            have hget : t.children[n1]? = some c1 :=
              List.mk_mem_enum_iff_getElem?.mp hic
            exact Thought.getAt_snoc (hvalid _ (List.mem_cons_self _ _)) hget
  intro q
  exact aux (queueSizeT q) q le_rfl

theorem bfsNodes_valid (r : Thought) : ∀ e ∈ r.bfsNodes, r.getAt e.1 = some e.2 := by
  apply bfsAux_valid
  intro e he
  rcases List.mem_singleton.mp he with rfl
  rfl

theorem lookup_filter_ne {α : Type} (m : List (String × α)) (k k2 : String) (h : k2 ≠ k) :
    (m.filter (fun e => e.1 != k)).lookup k2 = m.lookup k2 := by
  have hkk : (k2 == k) = false := by simp [h]
  induction m with
  | nil => rfl
  | cons e rest ih =>
    by_cases he : e.1 = k
    · have h1 : (e.1 != k) = false := by simp [he]
      have h2 : (k2 == e.1) = false := by simp [he, h]
      simp only [List.filter_cons, h1, Bool.false_eq_true, if_false, List.lookup, h2, ih]
    · have h1 : (e.1 != k) = true := by simp [he]
      by_cases he2 : k2 = e.1
      · have h2 : (k2 == e.1) = true := by simp [he2]
        simp only [List.filter_cons, h1, if_true, List.lookup, h2]
      · have h2 : (k2 == e.1) = false := by simp [he2]
        simp only [List.filter_cons, h1, if_true, List.lookup, h2, ih]

theorem lookup_mapSet_self {α : Type} (m : List (String × α)) (k : String) (v : α) :
    (mapSet m k v).lookup k = some v := by
  simp [mapSet, List.lookup]

theorem lookup_mapSet_ne {α : Type} (m : List (String × α)) (k k2 : String) (v : α)
    (h : k2 ≠ k) : (mapSet m k v).lookup k2 = m.lookup k2 := by
  have hne : (k2 == k) = false := by simp [h]
  simp only [mapSet, List.lookup, hne]
  exact lookup_filter_ne m k k2 h

theorem decodeList_encodeList_of (cs : List Thought)
    (h : ∀ c ∈ cs, decodeThought (encodeThought c) = c) :
    decodeThoughtList (encodeThoughtList cs) = cs := by
  induction cs with
  | nil => rfl
  | cons x xs ih =>
    simp only [encodeThoughtList, decodeThoughtList]
    rw [h x (List.mem_cons_self _ _), ih (fun c hc => h c (List.mem_cons_of_mem _ hc))]

theorem decodeThought_encodeThought : ∀ t : Thought, decodeThought (encodeThought t) = t := by
  intro t
  induction t using Thought.strongInduction with
  | step t ih =>
    cases t with
    | mk i c p s d dep ca cs pa =>
      simp only [encodeThought, decodeThought]
      rw [decodeList_encodeList_of cs (fun c hc => ih c (by simpa [Thought.children] using hc))]

theorem decodeSession_encodeSession (s : Session) :
    decodeSession (encodeSession s) =
      { s with rootThought :=
          s.rootThought.map (fun r => normalizeThoughtTree r none none) } := by
  cases s with
  | mk i u rt ctx ca ua ia =>
    cases rt with
    | none => rfl
    | some root =>
      simp [decodeSession, encodeSession, decodeThought_encodeThought]

theorem cloneSession_eq (s : Session) :
    cloneSession s =
      { s with rootThought :=
          s.rootThought.map (fun r => normalizeThoughtTree r none none) } := by
  unfold cloneSession
  exact decodeSession_encodeSession s

theorem normalizeThoughtTree_strip :
    ∀ (t : Thought) (parent : Option Thought) (pp : Option (List String)),
      (normalizeThoughtTree t parent pp).strip = t.strip := by
  intro t
  induction t using Thought.strongInduction with
  | step t ih =>
    cases t with
    | mk i c p sid dir dep ca cs pa =>
      intro parent pp
      simp only [normalizeThoughtTree, Thought.strip]
      have hcs : ∀ (par : Thought) (ppl : List String),
          stripList (normalizeThoughtTreeList cs par ppl) = stripList cs := by
        intro par ppl
        rw [normalizeThoughtTreeList_eq_map, stripList_eq_map, stripList_eq_map, List.map_map]
        apply List.map_congr_left
        intro a ha
        exact ih a (by simpa [Thought.children] using ha) _ _
      rw [hcs]

theorem normalizeThoughtTree_pathDepthOk :
    ∀ (t : Thought) (anc : List String) (parent : Option Thought) (pp : Option (List String)),
      ((parent = none ∧ pp = none ∧ anc = []) ∨
        (∃ par, parent = some par ∧ pp = some anc ∧ par.depth + 1 = anc.length)) →
      PathDepthOk (normalizeThoughtTree t parent pp) anc := by
  intro t
  induction t using Thought.strongInduction with
  | step t ih =>
    cases t with
    | mk i c p sid dir dep ca cs pa =>
      intro anc parent pp hrel
      unfold PathDepthOk
      rcases hrel with ⟨hp, hpp, hanc⟩ | ⟨par, hp, hpp, hdep⟩
      · subst hp hpp hanc
        simp only [normalizeThoughtTree]
        rw [pathDepthOkB_def]
        rw [Bool.and_eq_true, Bool.and_eq_true]
        refine ⟨⟨?_, ?_⟩, ?_⟩
        · simp [Thought.path, Thought.content]
        · simp [Thought.depth]
        · simp only [Thought.children, Thought.content]
          rw [pathDepthOkListB_iff_forall]
          intro x hx
          rw [normalizeThoughtTreeList_eq_map] at hx
          rcases List.mem_map.mp hx with ⟨child, hchild, hxeq⟩
          subst hxeq
          have hmem : child ∈ Thought.children ⟨i, c, p, sid, dir, dep, ca, cs, pa⟩ := by
            simpa [Thought.children] using hchild
          apply ih child hmem ([] ++ [c])
          refine Or.inr ⟨_, rfl, by simp, ?_⟩
          simp [Thought.depth]
      · subst hp hpp
        cases par with
        | mk pi pc pp2 ps pd pdep pca pcs ppa =>
          simp only [Thought.depth] at hdep
          simp only [normalizeThoughtTree, Thought.depth, Thought.id, Option.map_some]
          rw [pathDepthOkB_def]
          rw [Bool.and_eq_true, Bool.and_eq_true]
          refine ⟨⟨?_, ?_⟩, ?_⟩
          · simp [Thought.path, Thought.content]
          · simp only [Thought.depth, decide_eq_true_eq]
            exact hdep
          · simp only [Thought.children, Thought.content]
            rw [pathDepthOkListB_iff_forall]
            intro x hx
            rw [normalizeThoughtTreeList_eq_map] at hx
            rcases List.mem_map.mp hx with ⟨child, hchild, hxeq⟩
            subst hxeq
            have hmem : child ∈ Thought.children ⟨i, c, p, sid, dir, dep, ca, cs, pa⟩ := by
              simpa [Thought.children] using hchild
            apply ih child hmem (anc ++ [c])
            refine Or.inr ⟨_, rfl, rfl, ?_⟩
            simp only [Thought.depth, List.length_append, List.length_cons, List.length_nil]
            omega

/-- C1: for every session tree — in particular any tree assembled by a
sequence of `AddChild` calls whose node contents were then edited —
`NormalizeTree` re-derives every node path as the contents of its ancestors
from the root followed by its own content, and every node depth as its
ancestor count (`PathDepthOk _ []`, whose root case is depth `0`), while
changing nothing else (`strip` is preserved); and `NormalizeTree` is
idempotent. -/
theorem claim_C1_normalizeTree_correct (s : Session) :
    (∀ root, s.rootThought = some root →
      ∃ nroot, s.normalizeTree.rootThought = some nroot ∧ PathDepthOk nroot [] ∧
        nroot.strip = root.strip) ∧
    s.normalizeTree.normalizeTree = s.normalizeTree := by
  constructor
  · intro root hroot
    refine ⟨normalizeLoop root none 0 [root.content], ?_, ?_, ?_⟩
    · rw [Session.normalizeTree_rootThought_some s root hroot]
    · have h := pathDepthOk_normalizeLoop root [] none
      simpa using h
    · exact strip_normalizeLoop root none 0 [root.content]
  · exact Session.normalizeTree_idem s

/-- C1 witness: a concrete denormalized two-node session (bogus depths and
paths), normalized and checked. -/
theorem claim_C1_normalizeTree_correct_witness :
    ∃ nroot,
      (Session.normalizeTree
        ⟨"s1", "u1",
          some ⟨"t1", "A", some "zzz", "s1", ⟨"broad", "Root", "", [], 0⟩, 5, 1,
            [⟨"t2", "B", none, "s1", ⟨"deep", "Learn", "", [], 0⟩, 9, 2, [], []⟩], []⟩,
          [], 1, 1, true⟩).rootThought = some nroot ∧
      PathDepthOk nroot [] ∧
      nroot.strip =
        Thought.strip ⟨"t1", "A", some "zzz", "s1", ⟨"broad", "Root", "", [], 0⟩, 5, 1,
          [⟨"t2", "B", none, "s1", ⟨"deep", "Learn", "", [], 0⟩, 9, 2, [], []⟩], []⟩ :=
  (claim_C1_normalizeTree_correct _).1 _ rfl


/-- C9: a serialize/deserialize round trip (deserialization renormalizes the
tree) reproduces an equivalent session: every scalar field is preserved, the
tree's ids/contents/directions and parent-child structure are identical
(`strip` is preserved), and depth/path carry the values recomputed from the
tree shape (`PathDepthOk _ []`). -/
theorem claim_C9_serialize_roundTrip (s : Session) :
    (decodeSession (encodeSession s)).id = s.id ∧
    (decodeSession (encodeSession s)).userID = s.userID ∧
    (decodeSession (encodeSession s)).context = s.context ∧
    (decodeSession (encodeSession s)).createdAt = s.createdAt ∧
    (decodeSession (encodeSession s)).updatedAt = s.updatedAt ∧
    (decodeSession (encodeSession s)).isActive = s.isActive ∧
    (s.rootThought = none → (decodeSession (encodeSession s)).rootThought = none) ∧
    (∀ root, s.rootThought = some root →
      ∃ nroot, (decodeSession (encodeSession s)).rootThought = some nroot ∧
        nroot.strip = root.strip ∧ PathDepthOk nroot []) := by
  rw [decodeSession_encodeSession]
  refine ⟨rfl, rfl, rfl, rfl, rfl, rfl, ?_, ?_⟩
  · intro h
    simp [h]
  · intro root hroot
    refine ⟨normalizeThoughtTree root none none, by simp [hroot], ?_, ?_⟩
    · exact normalizeThoughtTree_strip root none none
    · exact normalizeThoughtTree_pathDepthOk root [] none none (Or.inl ⟨rfl, rfl, rfl⟩)

/-- C9 witness: a session with a 3-level tree (root, two children, one
grandchild) with denormalized depths round-trips to a strip-identical tree
whose depths, in node order, are `[0, 1, 2, 1]` — the multiset `{0,1,1,2}`
matching the original structure. -/
theorem claim_C9_serialize_roundTrip_witness :
    (∃ nroot,
      (decodeSession (encodeSession
        ⟨"s1", "u1",
          some ⟨"t1", "A", none, "s1", ⟨"broad", "Root", "", [], 0⟩, 7, 1,
            [⟨"t2", "B", none, "s1", ⟨"deep", "D1", "", [], 0⟩, 0, 2,
              [⟨"t4", "D", none, "s1", ⟨"lateral", "L", "", [], 0⟩, 0, 4, [], []⟩], []⟩,
             ⟨"t3", "C", none, "s1", ⟨"critical", "K", "", [], 0⟩, 3, 3, [], []⟩],
            []⟩,
          [], 1, 1, true⟩)).rootThought = some nroot ∧
      nroot.strip =
        Thought.strip ⟨"t1", "A", none, "s1", ⟨"broad", "Root", "", [], 0⟩, 7, 1,
          [⟨"t2", "B", none, "s1", ⟨"deep", "D1", "", [], 0⟩, 0, 2,
            [⟨"t4", "D", none, "s1", ⟨"lateral", "L", "", [], 0⟩, 0, 4, [], []⟩], []⟩,
           ⟨"t3", "C", none, "s1", ⟨"critical", "K", "", [], 0⟩, 3, 3, [], []⟩],
          []⟩ ∧
      PathDepthOk nroot []) ∧
    ((decodeSession (encodeSession
        ⟨"s1", "u1",
          some ⟨"t1", "A", none, "s1", ⟨"broad", "Root", "", [], 0⟩, 7, 1,
            [⟨"t2", "B", none, "s1", ⟨"deep", "D1", "", [], 0⟩, 0, 2,
              [⟨"t4", "D", none, "s1", ⟨"lateral", "L", "", [], 0⟩, 0, 4, [], []⟩], []⟩,
             ⟨"t3", "C", none, "s1", ⟨"critical", "K", "", [], 0⟩, 3, 3, [], []⟩],
            []⟩,
          [], 1, 1, true⟩)).rootThought.map
        (fun r => r.allNodes.map Thought.depth)) = some [0, 1, 2, 1] :=
  ⟨(claim_C9_serialize_roundTrip _).2.2.2.2.2.2.2 _ rfl, by decide⟩

theorem indexSessionLocked_files (fs : FileSessionStore) (s : Session) (now : Nat) :
    (fs.indexSessionLocked s now).files = fs.files := by
  unfold FileSessionStore.indexSessionLocked
  by_cases h : s.userID = "" <;> simp [h]

theorem indexSessionLocked_sessionIndex_self (fs : FileSessionStore) (s : Session)
    (now : Nat) :
    (fs.indexSessionLocked s now).sessionIndex.lookup s.id = some (safeUpdatedAt s now) := by
  unfold FileSessionStore.indexSessionLocked
  by_cases h : s.userID = "" <;> simp [h, lookup_mapSet_self]

theorem indexSessionLocked_userIndex_self (fs : FileSessionStore) (s : Session)
    (now : Nat) (h : s.userID ≠ "") :
    ∃ ids, (fs.indexSessionLocked s now).userIndex.lookup s.userID = some ids ∧
      s.id ∈ ids := by
  unfold FileSessionStore.indexSessionLocked
  simp only [h, if_false]
  refine ⟨_, lookup_mapSet_self _ _ _, ?_⟩
  by_cases hmem : s.id ∈ (((fs.userIndex.map (fun e =>
      if s.id ∈ e.2 ∧ e.1 ≠ s.userID then (e.1, e.2.filter (fun x => x != s.id))
      else e)).lookup s.userID).getD [])
  · simp [hmem]
  · simp [hmem]

/-- C5: for both backends, saving a session whose id already has a stored
record fails with the AlreadyExists-style error (returning no new store, so
the stored state is untouched); a first save of a fresh id succeeds and
records the session (the in-memory backend stores a deep clone, the file
backend the serialized document). -/
theorem claim_C5_save_alreadyExists :
    (∀ (st : InMemorySessionStore) (s : Session),
      ((st.sessions.lookup s.id).isSome → st.save s = .error .alreadyExists) ∧
      (st.sessions.lookup s.id = none →
        ∃ st2, st.save s = .ok st2 ∧ st2.sessions.lookup s.id = some (cloneSession s))) ∧
    (∀ (fs : FileSessionStore) (s : Session) (now : Nat),
      ((fs.files.lookup s.id).isSome → fs.save s now = .error .alreadyExists) ∧
      (fs.files.lookup s.id = none →
        ∃ fs2, fs.save s now = .ok fs2 ∧
          fs2.files.lookup s.id = some (encodeSession s))) := by
  constructor
  · intro st s
    constructor
    · intro h
      simp [InMemorySessionStore.save, h]
    · intro h
      refine ⟨⟨mapSet st.sessions s.id (cloneSession s)⟩, ?_, ?_⟩
      · simp [InMemorySessionStore.save, h]
      · exact lookup_mapSet_self _ _ _
  · intro fs s now
    constructor
    · intro h
      simp [FileSessionStore.save, h]
    · intro h
      refine ⟨FileSessionStore.indexSessionLocked
          { fs with files := mapSet fs.files s.id (encodeSession s) } s now, ?_, ?_⟩
      · simp [FileSessionStore.save, h]
      · rw [indexSessionLocked_files]
        exact lookup_mapSet_self _ _ _

/-- C5 witness: a fresh save succeeds and a duplicate save fails, on both
backends, for a concrete session. -/
theorem claim_C5_save_alreadyExists_witness :
    (∃ st2, InMemorySessionStore.save ⟨[]⟩ (NewSession "s1" "t1" "u1" "A" 5) = .ok st2 ∧
      st2.sessions.lookup "s1" = some (cloneSession (NewSession "s1" "t1" "u1" "A" 5))) ∧
    (InMemorySessionStore.save ⟨[("s1", NewSession "s1" "t1" "u1" "A" 5)]⟩
      (NewSession "s1" "t2" "u1" "B" 6) = .error .alreadyExists) ∧
    (∃ fs2, FileSessionStore.save ⟨[], [], []⟩ (NewSession "s1" "t1" "u1" "A" 5) 5 =
        .ok fs2 ∧
      fs2.files.lookup "s1" = some (encodeSession (NewSession "s1" "t1" "u1" "A" 5))) ∧
    (FileSessionStore.save ⟨[("s1", encodeSession (NewSession "s1" "t1" "u1" "A" 5))], [], []⟩
      (NewSession "s1" "t2" "u1" "B" 6) 6 = .error .alreadyExists) :=
  ⟨(claim_C5_save_alreadyExists.1 _ _).2 (by decide),
   (claim_C5_save_alreadyExists.1 _ _).1 (by decide),
   (claim_C5_save_alreadyExists.2 _ _ _).2 (by decide),
   (claim_C5_save_alreadyExists.2 _ _ _).1 (by decide)⟩

/-- C6: for both backends a Get on an unknown id fails with SessionNotFound,
and a Get on a stored id returns a deep copy — the in-memory backend a clone
of the stored session (same scalar fields, strip-identical tree), the file
backend the decoded document.  Get makes no change to the store state (it is
a pure read of it), so nothing done with the returned copy can alter what a
later Get returns; only an explicit Update changes the stored record. -/
theorem claim_C6_get_deep_copy :
    (∀ (st : InMemorySessionStore) (sessionID : String),
      (st.sessions.lookup sessionID = none →
        st.get sessionID = .error .sessionNotFound) ∧
      (∀ v, st.sessions.lookup sessionID = some v →
        st.get sessionID = .ok (cloneSession v) ∧
        (cloneSession v).id = v.id ∧
        (cloneSession v).userID = v.userID ∧
        (cloneSession v).updatedAt = v.updatedAt ∧
        (cloneSession v).rootThought.map Thought.strip =
          v.rootThought.map Thought.strip)) ∧
    (∀ (fs : FileSessionStore) (sessionID : String),
      (fs.files.lookup sessionID = none →
        fs.get sessionID = .error .sessionNotFound) ∧
      (∀ doc, fs.files.lookup sessionID = some doc →
        fs.get sessionID = .ok (decodeSession doc))) := by
  constructor
  · intro st sessionID
    constructor
    · intro h
      simp [InMemorySessionStore.get, h]
    · intro v h
      refine ⟨by simp [InMemorySessionStore.get, h], ?_, ?_, ?_, ?_⟩
      · rw [cloneSession_eq]
      · rw [cloneSession_eq]
      · rw [cloneSession_eq]
      · rw [cloneSession_eq]
        cases hr : v.rootThought with
        | none => simp [hr]
        | some root => simp [hr, normalizeThoughtTree_strip]
  · intro fs sessionID
    constructor
    · intro h
      simp [FileSessionStore.get, h]
    · intro doc h
      simp [FileSessionStore.get, h]

/-- C6 witness: a miss fails and a hit returns the clone, on both backends. -/
theorem claim_C6_get_deep_copy_witness :
    (InMemorySessionStore.get ⟨[]⟩ "nope" = .error .sessionNotFound) ∧
    (InMemorySessionStore.get ⟨[("s1", NewSession "s1" "t1" "u1" "A" 5)]⟩ "s1" =
      .ok (cloneSession (NewSession "s1" "t1" "u1" "A" 5))) ∧
    (FileSessionStore.get ⟨[], [], []⟩ "nope" = .error .sessionNotFound) ∧
    (FileSessionStore.get ⟨[("s1", encodeSession (NewSession "s1" "t1" "u1" "A" 5))], [], []⟩
      "s1" = .ok (decodeSession (encodeSession (NewSession "s1" "t1" "u1" "A" 5)))) :=
  ⟨(claim_C6_get_deep_copy.1 _ _).1 (by decide),
   ((claim_C6_get_deep_copy.1 _ _).2 _ (by decide)).1,
   (claim_C6_get_deep_copy.2 _ _).1 (by decide),
   (claim_C6_get_deep_copy.2 _ _).2 _ (by decide)⟩

/-- C7: Update of a never-saved id fails with SessionNotFound on the
in-memory backend (no new store state is produced, so the store is
unchanged), while the file backend's Update always succeeds — silently
creating the record when absent — and refreshes the derived indexes (the
session index gets `safeUpdatedAt`, the user index gains the id); on a
previously saved id both backends replace the stored record with a deep
copy (clone / serialized document). -/
theorem claim_C7_update_divergence :
    (∀ (st : InMemorySessionStore) (s : Session),
      (st.sessions.lookup s.id = none → st.update s = .error .sessionNotFound) ∧
      ((st.sessions.lookup s.id).isSome →
        ∃ st2, st.update s = .ok st2 ∧
          st2.sessions.lookup s.id = some (cloneSession s))) ∧
    (∀ (fs : FileSessionStore) (s : Session) (now : Nat),
      ∃ fs2, fs.update s now = .ok fs2 ∧
        fs2.files.lookup s.id = some (encodeSession s) ∧
        fs2.sessionIndex.lookup s.id = some (safeUpdatedAt s now) ∧
        (s.userID ≠ "" →
          ∃ ids, fs2.userIndex.lookup s.userID = some ids ∧ s.id ∈ ids)) := by
  constructor
  · intro st s
    constructor
    · intro h
      simp [InMemorySessionStore.update, h]
    · intro h
      refine ⟨⟨mapSet st.sessions s.id (cloneSession s)⟩, ?_, ?_⟩
      · simp [InMemorySessionStore.update, h]
      · exact lookup_mapSet_self _ _ _
  · intro fs s now
    refine ⟨FileSessionStore.indexSessionLocked
        { fs with files := mapSet fs.files s.id (encodeSession s) } s now, rfl, ?_, ?_, ?_⟩
    · rw [indexSessionLocked_files]
      exact lookup_mapSet_self _ _ _
    · exact indexSessionLocked_sessionIndex_self _ _ _
    · intro h
      exact indexSessionLocked_userIndex_self _ _ _ h

/-- C7 witness: concrete update of a missing id (fails in memory, creates on
file) and of a present id. -/
theorem claim_C7_update_divergence_witness :
    (InMemorySessionStore.update ⟨[]⟩ (NewSession "s1" "t1" "u1" "A" 5) =
      .error .sessionNotFound) ∧
    (∃ st2, InMemorySessionStore.update
        ⟨[("s1", NewSession "s1" "t1" "u1" "A" 5)]⟩ (NewSession "s1" "t2" "u1" "B" 6) =
        .ok st2 ∧
      st2.sessions.lookup "s1" = some (cloneSession (NewSession "s1" "t2" "u1" "B" 6))) ∧
    (∃ fs2, FileSessionStore.update ⟨[], [], []⟩ (NewSession "s1" "t1" "u1" "A" 5) 5 =
        .ok fs2 ∧
      fs2.files.lookup "s1" = some (encodeSession (NewSession "s1" "t1" "u1" "A" 5)) ∧
      fs2.sessionIndex.lookup "s1" = some (safeUpdatedAt (NewSession "s1" "t1" "u1" "A" 5) 5) ∧
      ("u1" ≠ "" → ∃ ids, fs2.userIndex.lookup "u1" = some ids ∧ "s1" ∈ ids)) :=
  ⟨(claim_C7_update_divergence.1 _ _).1 (by decide),
   (claim_C7_update_divergence.1 _ _).2 (by decide),
   claim_C7_update_divergence.2 _ _ _⟩


theorem cloneSession_updatedAt (s : Session) : (cloneSession s).updatedAt = s.updatedAt := by
  rw [cloneSession_eq]

/-- C8 (amended): for both backends no returned session has
`updatedAt ≥ threshold`.  The in-memory backend returns exactly the clones of
stored sessions whose `updatedAt` is strictly before the threshold — a zero
`updatedAt` is not special-cased, so such a session is returned only when the
zero timestamp itself is strictly before the threshold.  The file backend
returns a decoded session iff some index entry for its id passes the
candidate test (an indexed timestamp of zero or strictly before the
threshold) and its stored `updatedAt` is strictly before the threshold. -/
theorem claim_C8_getExpired_amended :
    (∀ (st : InMemorySessionStore) (before : Nat) (x : Session),
      x ∈ st.getExpiredSessions before ↔
        ∃ e ∈ st.sessions, e.2.updatedAt < before ∧ x = cloneSession e.2) ∧
    (∀ (st : InMemorySessionStore) (before : Nat),
      ∀ x ∈ st.getExpiredSessions before, x.updatedAt < before) ∧
    (∀ (fs : FileSessionStore) (before : Nat) (x : Session),
      x ∈ fs.getExpiredSessions before ↔
        ∃ sid m doc, (sid, m) ∈ fs.sessionIndex ∧ (m = 0 ∨ m < before) ∧
          fs.files.lookup sid = some doc ∧ (decodeSession doc).updatedAt < before ∧
          x = decodeSession doc) ∧
    (∀ (fs : FileSessionStore) (before : Nat),
      ∀ x ∈ fs.getExpiredSessions before, x.updatedAt < before) := by
  have hmem : ∀ (st : InMemorySessionStore) (before : Nat) (x : Session),
      x ∈ st.getExpiredSessions before ↔
        ∃ e ∈ st.sessions, e.2.updatedAt < before ∧ x = cloneSession e.2 := by
    intro st before x
    unfold InMemorySessionStore.getExpiredSessions
    simp only [List.mem_map, List.mem_filter, decide_eq_true_eq]
    constructor
    · rintro ⟨e, ⟨he, hlt⟩, hx⟩
      exact ⟨e, he, hlt, hx.symm⟩
    · rintro ⟨e, he, hlt, hx⟩
      exact ⟨e, ⟨he, hlt⟩, hx.symm⟩
  have hfmem : ∀ (fs : FileSessionStore) (before : Nat) (x : Session),
      x ∈ fs.getExpiredSessions before ↔
        ∃ sid m doc, (sid, m) ∈ fs.sessionIndex ∧ (m = 0 ∨ m < before) ∧
          fs.files.lookup sid = some doc ∧ (decodeSession doc).updatedAt < before ∧
          x = decodeSession doc := by
    intro fs before x
    unfold FileSessionStore.getExpiredSessions
    simp only [List.mem_filterMap, List.mem_map, List.mem_filter, decide_eq_true_eq]
    constructor
    · rintro ⟨sid, ⟨⟨sid2, m⟩, ⟨hmem2, hcand⟩, hfst⟩, hf⟩
      cases hfst
      cases hlook : fs.files.lookup sid2 with
      | none => simp [hlook] at hf
      | some doc =>
        by_cases hlt : (decodeSession doc).updatedAt < before
        · simp only [hlook, if_pos hlt, Option.some.injEq] at hf
          subst hf
          exact ⟨sid2, m, doc, hmem2, hcand, hlook, hlt, rfl⟩
        · simp [hlook, hlt] at hf
    · rintro ⟨sid, m, doc, hmem2, hcand, hlook, hlt, hx⟩
      subst hx
      refine ⟨sid, ⟨(sid, m), ⟨hmem2, hcand⟩, rfl⟩, ?_⟩
      simp [hlook, hlt]
  refine ⟨hmem, ?_, hfmem, ?_⟩
  · intro st before x hx
    rcases (hmem st before x).mp hx with ⟨e, _, hlt, hx2⟩
    rw [hx2, cloneSession_updatedAt]
    exact hlt
  · intro fs before x hx
    rcases (hfmem fs before x).mp hx with ⟨sid, m, doc, _, _, _, hlt, hx2⟩
    rw [hx2]
    exact hlt

/-- C8 counterexample: the original claim requires a session with a
missing/zero `updatedAt` to be returned "regardless of the threshold"; with
the zero timestamp itself as the threshold, the in-memory backend returns
nothing, because `UpdatedAt.Before(before)` is a strict comparison with no
zero special-case. -/
theorem claim_C8_getExpired_counterexample :
    (⟨"s1", "u1", none, [], 0, 0, true⟩ : Session).updatedAt = 0 ∧
    InMemorySessionStore.getExpiredSessions
      ⟨[("s1", ⟨"s1", "u1", none, [], 0, 0, true⟩)]⟩ 0 = [] := by
  constructor
  · rfl
  · decide

/-- C8 witness: the amended in-memory characterization at a concrete store —
a session with `updatedAt = 3` is returned for threshold 5 and the membership
equivalence holds. -/
theorem claim_C8_getExpired_amended_witness :
    cloneSession (⟨"s1", "u1", none, [], 1, 3, true⟩ : Session) ∈
      InMemorySessionStore.getExpiredSessions
        ⟨[("s1", ⟨"s1", "u1", none, [], 1, 3, true⟩)]⟩ 5 :=
  (claim_C8_getExpired_amended.1 _ _ _).mpr
    ⟨("s1", ⟨"s1", "u1", none, [], 1, 3, true⟩), by decide, by decide, rfl⟩


theorem direction_eq_of_strip_eq {t1 t2 : Thought} (h : t1.strip = t2.strip) :
    t1.direction = t2.direction := by
  cases t1
  cases t2
  simp only [Thought.strip, TreeShape.mk.injEq] at h
  exact h.2.2.2.1

theorem Thought.withChildren_self (t : Thought) : t.withChildren t.children = t := by
  cases t
  rfl

theorem set_of_getElem?_eq {α : Type} :
    ∀ (cs : List α) (i : Nat) (c : α), cs[i]? = some c → cs.set i c = cs := by
  intro cs
  induction cs with
  | nil =>
    intro i c h
    simp at h
  | cons x xs ih =>
    intro i c h
    cases i with
    | zero =>
      simp only [List.getElem?_cons_zero, Option.some.injEq] at h
      subst h
      rfl
    | succ n =>
      simp only [List.getElem?_cons_succ] at h
      simp [List.set, ih n c h]

theorem modifyAt_id_of_valid {x : Thought} :
    ∀ (p : List Nat) (r : Thought), r.getAt p = some x →
      r.modifyAt p (fun t => t) = some r := by
  intro p
  induction p with
  | nil =>
    intro r _
    rfl
  | cons i rest ih =>
    intro r hget
    simp only [Thought.getAt] at hget
    cases hc : r.children[i]? with
    | none => rw [hc] at hget; exact absurd hget (by simp)
    | some c =>
      rw [hc] at hget
      simp only [Thought.modifyAt, hc]
      rw [ih c hget]
      simp [set_of_getElem?_eq r.children i c hc, Thought.withChildren_self]

theorem getAt_normalizeLoop :
    ∀ (p : List Nat) (r : Thought) (pid : Option String) (d : Nat) (np : List String)
      (x : Thought), r.getAt p = some x →
      ∃ y, (normalizeLoop r pid d np).getAt p = some y ∧ y.strip = x.strip := by
  intro p
  induction p with
  | nil =>
    intro r pid d np x hget
    simp only [Thought.getAt, Option.some.injEq] at hget
    subst hget
    exact ⟨normalizeLoop r pid d np, rfl, strip_normalizeLoop r pid d np⟩
  | cons i rest ih =>
    intro r pid d np x hget
    simp only [Thought.getAt] at hget
    cases hc : r.children[i]? with
    | none => rw [hc] at hget; exact absurd hget (by simp)
    | some c =>
      rw [hc] at hget
      have hch : (normalizeLoop r pid d np).children[i]? =
          some (normalizeLoop c (some r.id) (d + 1)
            (if 0 < np.length then np ++ [c.content] else [c.content])) := by
        rw [normalizeLoop_children, normalizeLoopChildren_eq_map]
        simp [List.getElem?_map, hc]
      rcases ih c (some r.id) (d + 1)
          (if 0 < np.length then np ++ [c.content] else [c.content]) x hget with ⟨y, hy, hstrip⟩
      refine ⟨y, ?_, hstrip⟩
      simp only [Thought.getAt, hch]
      exact hy

theorem findThoughtPath_trim_ne {s : Session} {tid : String} {p : List Nat}
    (h : s.findThoughtPath tid = some p) : trimSpace tid ≠ "" := by
  intro htrim
  unfold Session.findThoughtPath at h
  rw [if_pos (Or.inr htrim)] at h
  exact absurd h (by simp)

theorem findThoughtPath_some {s : Session} {root : Thought} {tid : String} {p : List Nat}
    (hroot : s.rootThought = some root) (h : s.findThoughtPath tid = some p) :
    ∃ node, root.getAt p = some node ∧ node.id = tid := by
  unfold Session.findThoughtPath at h
  by_cases hc : s.rootThought = none ∨ trimSpace tid = ""
  · rw [if_pos hc] at h
    exact absurd h (by simp)
  · rw [if_neg hc] at h
    simp only [hroot] at h
    rcases Option.map_eq_some'.mp h with ⟨e, hfind, hep⟩
    have hmem := List.mem_of_find?_eq_some hfind
    have hpred := List.find?_some hfind
    have hvalid := bfsNodes_valid root e hmem
    refine ⟨e.2, ?_, by simpa using hpred⟩
    rw [hep] at hvalid
    exact hvalid

/-- C10: for a thought id present in the tree, `ApplyThoughtUpdate` with a
(non-nil) update carrying neither content nor direction succeeds, leaves the
target's content and direction unchanged, still renormalizes the whole tree
and stamps `updatedAt = now`; the at-least-one-field-present rule is enforced
only by the boundary validator `ValidateThoughtUpdate`, which rejects exactly
that payload with InvalidRequest. -/
theorem claim_C10_empty_update (s : Session) (root : Thought) (tid : String)
    (p : List Nat) (now : Nat)
    (hroot : s.rootThought = some root) (hfind : s.findThoughtPath tid = some p) :
    (∃ target target2,
      root.getAt p = some target ∧
      s.applyThoughtUpdate tid ⟨none, none⟩ now =
        .ok (target2, Session.normalizeTree { s with updatedAt := now }) ∧
      target2.content = target.content ∧
      target2.direction = target.direction) ∧
    (∃ nroot, (Session.normalizeTree { s with updatedAt := now }).rootThought = some nroot ∧
      PathDepthOk nroot []) ∧
    (Session.normalizeTree { s with updatedAt := now }).updatedAt = now ∧
    ValidateThoughtUpdate ⟨none, none⟩ = .error .invalidRequest := by
  have htrim := findThoughtPath_trim_ne hfind
  rcases findThoughtPath_some hroot hfind with ⟨target, hget, _⟩
  have hroot2 : ({ s with updatedAt := now } : Session).rootThought = some root := hroot
  have hnorm := Session.normalizeTree_rootThought_some { s with updatedAt := now } root hroot2
  rcases getAt_normalizeLoop p root none 0 [root.content] target hget with ⟨y, hy, hstrip⟩
  refine ⟨⟨target, y, hget, ?_, content_eq_of_strip_eq hstrip, direction_eq_of_strip_eq hstrip⟩,
    ⟨normalizeLoop root none 0 [root.content], by rw [hnorm], ?_⟩, ?_, rfl⟩
  · unfold Session.applyThoughtUpdate
    rw [if_neg htrim]
    simp only [hroot, hfind]
    rw [show (Thought.modifyAt root p fun target =>
        match (⟨none, none⟩ : ThoughtUpdate).direction with
        | some d =>
          Thought.withDirection
            (match (⟨none, none⟩ : ThoughtUpdate).content with
              | some c => target.withContent (trimSpace c)
              | none => target) d
        | none =>
          match (⟨none, none⟩ : ThoughtUpdate).content with
          | some c => target.withContent (trimSpace c)
          | none => target) =
      Thought.modifyAt root p fun t => t from rfl]
    rw [modifyAt_id_of_valid p root hget]
    have hnt := Session.normalizeTree_rootThought_some
      ({ s with rootThought := some root, updatedAt := now } : Session) root rfl
    simp [hnt, hy]
  · have h := pathDepthOk_normalizeLoop root [] none
    simpa using h
  · rw [hnorm]

/-- C10 witness: a two-node tree, empty update on the child. -/
theorem claim_C10_empty_update_witness :
    (∃ target target2,
      Thought.getAt
        ⟨"t1", "A", none, "s1", ⟨"broad", "Root", "", [], 0⟩, 0, 1,
          [⟨"t2", "B", none, "s1", ⟨"deep", "Learn", "", [], 0⟩, 1, 2, [], ["A", "B"]⟩],
          ["A"]⟩ [0] = some target ∧
      Session.applyThoughtUpdate
        ⟨"s1", "u1",
          some ⟨"t1", "A", none, "s1", ⟨"broad", "Root", "", [], 0⟩, 0, 1,
            [⟨"t2", "B", none, "s1", ⟨"deep", "Learn", "", [], 0⟩, 1, 2, [], ["A", "B"]⟩],
            ["A"]⟩,
          [], 1, 1, true⟩ "t2" ⟨none, none⟩ 9 =
        .ok (target2, Session.normalizeTree
          { (⟨"s1", "u1",
              some ⟨"t1", "A", none, "s1", ⟨"broad", "Root", "", [], 0⟩, 0, 1,
                [⟨"t2", "B", none, "s1", ⟨"deep", "Learn", "", [], 0⟩, 1, 2, [], ["A", "B"]⟩],
                ["A"]⟩,
              [], 1, 1, true⟩ : Session) with updatedAt := 9 }) ∧
      target2.content = target.content ∧
      target2.direction = target.direction) ∧
    ValidateThoughtUpdate ⟨none, none⟩ = .error .invalidRequest := by
  have hfind : Session.findThoughtPath
      ⟨"s1", "u1",
        some ⟨"t1", "A", none, "s1", ⟨"broad", "Root", "", [], 0⟩, 0, 1,
          [⟨"t2", "B", none, "s1", ⟨"deep", "Learn", "", [], 0⟩, 1, 2, [], ["A", "B"]⟩],
          ["A"]⟩,
        [], 1, 1, true⟩ "t2" = some [0] := by
    unfold Session.findThoughtPath
    rw [if_neg (by decide)]
    simp only [Thought.bfsNodes, bfsAux_cons, bfsAux_nil, Thought.children, List.enum,
      List.enumFrom, List.map, List.nil_append, List.append_nil, List.cons_append]
    decide
  exact ⟨(claim_C10_empty_update _ _ "t2" [0] 9 rfl hfind).1,
    (claim_C10_empty_update _ _ "t2" [0] 9 rfl hfind).2.2.2⟩


theorem Thought.self_mem_allNodes (t : Thought) : t ∈ t.allNodes := by
  rw [Thought.allNodes_def]
  exact List.mem_cons_self _ _

theorem depthFold_eq_maxFold (l : List Thought) :
    ∀ a : Nat, l.foldl (fun m t => if t.depth > m then t.depth else m) a =
      (l.map Thought.depth).foldl (fun m d => max m d) a := by
  induction l with
  | nil => intro a; rfl
  | cons t rest ih =>
    intro a
    simp only [List.foldl_cons, List.map_cons]
    rw [show (if t.depth > a then t.depth else a) = max a t.depth by
      rcases le_or_lt t.depth a with h | h
      · rw [if_neg (by omega), Nat.max_eq_left h]
      · rw [if_pos h, Nat.max_eq_right (le_of_lt h)]]
    exact ih (max a t.depth)

theorem le_maxFold (l : List Nat) : ∀ a : Nat, a ≤ l.foldl (fun m d => max m d) a := by
  induction l with
  | nil => intro a; exact le_rfl
  | cons d rest ih =>
    intro a
    simp only [List.foldl_cons]
    exact le_trans (Nat.le_max_left a d) (ih (max a d))

theorem maxFold_le_of_mem (l : List Nat) :
    ∀ (a : Nat) (x : Nat), x ∈ l → x ≤ l.foldl (fun m d => max m d) a := by
  induction l with
  | nil => intro a x hx; cases hx
  | cons d rest ih =>
    intro a x hx
    simp only [List.foldl_cons]
    rcases List.mem_cons.mp hx with h | h
    · subst h
      exact le_trans (Nat.le_max_right a x) (le_maxFold rest (max a x))
    · exact ih (max a d) x h

theorem maxFold_mem_or_init (l : List Nat) :
    ∀ a : Nat, l.foldl (fun m d => max m d) a = a ∨ l.foldl (fun m d => max m d) a ∈ l := by
  induction l with
  | nil => intro a; exact Or.inl rfl
  | cons d rest ih =>
    intro a
    simp only [List.foldl_cons]
    rcases ih (max a d) with h | h
    · rw [h]
      rcases max_choice a d with h2 | h2
      · exact Or.inl h2
      · exact Or.inr (by rw [h2]; exact List.mem_cons_self _ _)
    · exact Or.inr (List.mem_cons_of_mem _ h)

theorem dirFold_mem (nodes : List Thought) :
    ∀ (acc : List String) (x : String),
      x ∈ nodes.foldl (fun acc t =>
        if labelKey t ≠ "" ∧ labelKey t ∉ acc then acc ++ [labelKey t] else acc) acc ↔
      x ∈ acc ∨ (x ≠ "" ∧ ∃ n ∈ nodes, labelKey n = x) := by
  induction nodes with
  | nil =>
    intro acc x
    simp
  | cons t rest ih =>
    intro acc x
    simp only [List.foldl_cons]
    by_cases hc : labelKey t ≠ "" ∧ labelKey t ∉ acc
    · rw [if_pos hc]
      rw [ih (acc ++ [labelKey t]) x]
      constructor
      · rintro (h | ⟨hne, n, hn, hl⟩)
        · rcases List.mem_append.mp h with h2 | h2
          · exact Or.inl h2
          · have hx : x = labelKey t := List.mem_singleton.mp h2
            subst hx
            exact Or.inr ⟨hc.1, t, List.mem_cons_self _ _, rfl⟩
        · exact Or.inr ⟨hne, n, List.mem_cons_of_mem _ hn, hl⟩
      · rintro (h | ⟨hne, n, hn, hl⟩)
        · exact Or.inl (List.mem_append.mpr (Or.inl h))
        · rcases List.mem_cons.mp hn with h2 | h2
          · subst h2
            exact Or.inl (List.mem_append.mpr (Or.inr (List.mem_singleton.mpr hl.symm)))
          · exact Or.inr ⟨hne, n, h2, hl⟩
    · rw [if_neg hc]
      rw [ih acc x]
      constructor
      · rintro (h | ⟨hne, n, hn, hl⟩)
        · exact Or.inl h
        · exact Or.inr ⟨hne, n, List.mem_cons_of_mem _ hn, hl⟩
      · rintro (h | ⟨hne, n, hn, hl⟩)
        · exact Or.inl h
        · rcases List.mem_cons.mp hn with h2 | h2
          · subst h2
            rcases not_and_or.mp hc with h3 | h3
            · exact absurd (hl ▸ hne) (by simpa using h3)
            · exact Or.inl (by rw [← hl]; simpa using h3)
          · exact Or.inr ⟨hne, n, h2, hl⟩

theorem dirFold_nodup (nodes : List Thought) :
    ∀ acc : List String, acc.Nodup →
      (nodes.foldl (fun acc t =>
        if labelKey t ≠ "" ∧ labelKey t ∉ acc then acc ++ [labelKey t] else acc) acc).Nodup := by
  induction nodes with
  | nil => intro acc h; exact h
  | cons t rest ih =>
    intro acc h
    simp only [List.foldl_cons]
    by_cases hc : labelKey t ≠ "" ∧ labelKey t ∉ acc
    · rw [if_pos hc]
      exact ih _ (by simp [List.nodup_append, h, hc.2])
    · rw [if_neg hc]
      exact ih _ h

theorem getMetadata_none (s : Session) (h : s.rootThought = none) :
    s.getMetadata = ⟨0, 0, []⟩ := by
  unfold Session.getMetadata
  rw [h]

theorem getMetadata_some (s : Session) (root : Thought) (h : s.rootThought = some root) :
    s.getMetadata =
      ⟨(root.bfsNodes.map Prod.snd).length,
        (root.bfsNodes.map Prod.snd).foldl (fun m t => if t.depth > m then t.depth else m) 0,
        ((root.bfsNodes.map Prod.snd).foldl
          (fun acc t =>
            if labelKey t ≠ "" ∧ labelKey t ∉ acc then acc ++ [labelKey t] else acc)
          []).insertionSort (· ≤ ·)⟩ := by
  unfold Session.getMetadata
  rw [h]

/-- C3 (amended): GetMetadata counts every node of the tree (root included),
reports the maximum stored depth over all nodes, and reports the sorted,
duplicate-free list of the *non-empty* direction labels (title if non-empty,
else type) across all nodes; a node whose title and type are both empty
contributes no label. -/
theorem claim_C3_getMetadata (s : Session) :
    (s.rootThought = none → s.getMetadata = ⟨0, 0, []⟩) ∧
    (∀ root, s.rootThought = some root →
      s.getMetadata.totalThoughts = root.allNodes.length ∧
      (∃ n ∈ root.allNodes, n.depth = s.getMetadata.maxDepth) ∧
      (∀ n ∈ root.allNodes, n.depth ≤ s.getMetadata.maxDepth) ∧
      s.getMetadata.directions.Sorted (· ≤ ·) ∧
      s.getMetadata.directions.Nodup ∧
      (∀ x, x ∈ s.getMetadata.directions ↔ x ≠ "" ∧ ∃ n ∈ root.allNodes, labelKey n = x)) := by
  refine ⟨getMetadata_none s, ?_⟩
  intro root hroot
  have hperm := bfsNodes_map_snd_perm root
  have hmeta := getMetadata_some s root hroot
  have hmemiff : ∀ n : Thought, n ∈ root.bfsNodes.map Prod.snd ↔ n ∈ root.allNodes :=
    fun n => hperm.mem_iff
  have hfold := depthFold_eq_maxFold (root.bfsNodes.map Prod.snd) 0
  refine ⟨?_, ?_, ?_, ?_, ?_, ?_⟩
  · rw [hmeta]
    exact hperm.length_eq
  · rw [hmeta]
    simp only
    rw [hfold]
    rcases maxFold_mem_or_init ((root.bfsNodes.map Prod.snd).map Thought.depth) 0 with h | h
    · refine ⟨root, Thought.self_mem_allNodes root, ?_⟩
      rw [h]
      have hub := maxFold_le_of_mem ((root.bfsNodes.map Prod.snd).map Thought.depth) 0
        root.depth (by
          rw [List.mem_map]
          exact ⟨root, (hmemiff root).mpr (Thought.self_mem_allNodes root), rfl⟩)
      omega
    · rcases List.mem_map.mp h with ⟨n, hn, hd⟩
      exact ⟨n, (hmemiff n).mp hn, hd⟩
  · intro n hn
    rw [hmeta]
    simp only
    rw [hfold]
    exact maxFold_le_of_mem _ 0 n.depth (by
      rw [List.mem_map]
      exact ⟨n, (hmemiff n).mpr hn, rfl⟩)
  · rw [hmeta]
    exact List.sorted_insertionSort _ _
  · rw [hmeta]
    have h1 := dirFold_nodup (root.bfsNodes.map Prod.snd) [] List.nodup_nil
    exact ((List.perm_insertionSort _ _).nodup_iff).mpr h1
  · intro x
    rw [hmeta]
    simp only
    rw [(List.perm_insertionSort (· ≤ ·) _).mem_iff]
    rw [dirFold_mem (root.bfsNodes.map Prod.snd) [] x]
    simp only [List.not_mem_nil, false_or]
    constructor
    · rintro ⟨hne, n, hn, hl⟩
      exact ⟨hne, n, (hmemiff n).mp hn, hl⟩
    · rintro ⟨hne, n, hn, hl⟩
      exact ⟨hne, n, (hmemiff n).mpr hn, hl⟩

/-- C3 counterexample: a session whose root direction has an empty title and
an empty type has a node whose label ("" ) the claim's "sorted set of distinct
direction labels" would contain, yet GetMetadata reports no directions at all
— the code skips empty labels. -/
theorem claim_C3_getMetadata_counterexample :
    (⟨"t1", "A", none, "s1", ⟨"", "", "", [], 0⟩, 0, 1, [], ["A"]⟩ : Thought) ∈
      Thought.allNodes ⟨"t1", "A", none, "s1", ⟨"", "", "", [], 0⟩, 0, 1, [], ["A"]⟩ ∧
    labelKey ⟨"t1", "A", none, "s1", ⟨"", "", "", [], 0⟩, 0, 1, [], ["A"]⟩ = "" ∧
    (Session.getMetadata
      ⟨"s1", "u1", some ⟨"t1", "A", none, "s1", ⟨"", "", "", [], 0⟩, 0, 1, [], ["A"]⟩,
        [], 1, 1, true⟩).directions = [] := by
  refine ⟨by decide, by decide, ?_⟩
  rw [getMetadata_some _ _ rfl]
  simp only [Thought.bfsNodes, bfsAux_cons, bfsAux_nil, Thought.children, List.enum,
    List.enumFrom, List.map, List.nil_append, List.append_nil, List.cons_append]
  decide

/-- C3 witness: the spec's scenario — a root with a "Root"-titled broad
direction plus one deep child titled "Learning" reports two thoughts, max
depth 1, and a sorted direction list containing both labels. -/
theorem claim_C3_getMetadata_witness :
    (Session.getMetadata
      ⟨"s1", "u1",
        some ⟨"t1", "AI", none, "s1", ⟨"broad", "Root", "", [], 0⟩, 0, 1,
          [⟨"t2", "Supervised Learning", some "t1", "s1",
            ⟨"deep", "Learning", "", [], 0⟩, 1, 2, [], ["AI", "Supervised Learning"]⟩],
          ["AI"]⟩,
        ["AI"], 1, 1, true⟩).totalThoughts = 2 ∧
    (Session.getMetadata
      ⟨"s1", "u1",
        some ⟨"t1", "AI", none, "s1", ⟨"broad", "Root", "", [], 0⟩, 0, 1,
          [⟨"t2", "Supervised Learning", some "t1", "s1",
            ⟨"deep", "Learning", "", [], 0⟩, 1, 2, [], ["AI", "Supervised Learning"]⟩],
          ["AI"]⟩,
        ["AI"], 1, 1, true⟩).maxDepth = 1 ∧
    "Learning" ∈ (Session.getMetadata
      ⟨"s1", "u1",
        some ⟨"t1", "AI", none, "s1", ⟨"broad", "Root", "", [], 0⟩, 0, 1,
          [⟨"t2", "Supervised Learning", some "t1", "s1",
            ⟨"deep", "Learning", "", [], 0⟩, 1, 2, [], ["AI", "Supervised Learning"]⟩],
          ["AI"]⟩,
        ["AI"], 1, 1, true⟩).directions ∧
    "Root" ∈ (Session.getMetadata
      ⟨"s1", "u1",
        some ⟨"t1", "AI", none, "s1", ⟨"broad", "Root", "", [], 0⟩, 0, 1,
          [⟨"t2", "Supervised Learning", some "t1", "s1",
            ⟨"deep", "Learning", "", [], 0⟩, 1, 2, [], ["AI", "Supervised Learning"]⟩],
          ["AI"]⟩,
        ["AI"], 1, 1, true⟩).directions ∧
    (Session.getMetadata
      ⟨"s1", "u1",
        some ⟨"t1", "AI", none, "s1", ⟨"broad", "Root", "", [], 0⟩, 0, 1,
          [⟨"t2", "Supervised Learning", some "t1", "s1",
            ⟨"deep", "Learning", "", [], 0⟩, 1, 2, [], ["AI", "Supervised Learning"]⟩],
          ["AI"]⟩,
        ["AI"], 1, 1, true⟩).directions.Sorted (· ≤ ·) := by
  obtain ⟨htot, hex, hub, hsort, hnodup, hdir⟩ :=
    (claim_C3_getMetadata
      ⟨"s1", "u1",
        some ⟨"t1", "AI", none, "s1", ⟨"broad", "Root", "", [], 0⟩, 0, 1,
          [⟨"t2", "Supervised Learning", some "t1", "s1",
            ⟨"deep", "Learning", "", [], 0⟩, 1, 2, [], ["AI", "Supervised Learning"]⟩],
          ["AI"]⟩,
        ["AI"], 1, 1, true⟩).2
      ⟨"t1", "AI", none, "s1", ⟨"broad", "Root", "", [], 0⟩, 0, 1,
          [⟨"t2", "Supervised Learning", some "t1", "s1",
            ⟨"deep", "Learning", "", [], 0⟩, 1, 2, [], ["AI", "Supervised Learning"]⟩],
          ["AI"]⟩ rfl
  have hall : Thought.allNodes
      ⟨"t1", "AI", none, "s1", ⟨"broad", "Root", "", [], 0⟩, 0, 1,
          [⟨"t2", "Supervised Learning", some "t1", "s1",
            ⟨"deep", "Learning", "", [], 0⟩, 1, 2, [], ["AI", "Supervised Learning"]⟩],
          ["AI"]⟩ =
      [⟨"t1", "AI", none, "s1", ⟨"broad", "Root", "", [], 0⟩, 0, 1,
          [⟨"t2", "Supervised Learning", some "t1", "s1",
            ⟨"deep", "Learning", "", [], 0⟩, 1, 2, [], ["AI", "Supervised Learning"]⟩],
          ["AI"]⟩,
       ⟨"t2", "Supervised Learning", some "t1", "s1",
         ⟨"deep", "Learning", "", [], 0⟩, 1, 2, [], ["AI", "Supervised Learning"]⟩] := by
    decide
  refine ⟨?_, ?_, ?_, ?_, hsort⟩
  · rw [htot, hall]
    rfl
  · have hge : 1 ≤ (Session.getMetadata
        ⟨"s1", "u1",
        some ⟨"t1", "AI", none, "s1", ⟨"broad", "Root", "", [], 0⟩, 0, 1,
          [⟨"t2", "Supervised Learning", some "t1", "s1",
            ⟨"deep", "Learning", "", [], 0⟩, 1, 2, [], ["AI", "Supervised Learning"]⟩],
          ["AI"]⟩,
        ["AI"], 1, 1, true⟩).maxDepth :=
      hub ⟨"t2", "Supervised Learning", some "t1", "s1",
        ⟨"deep", "Learning", "", [], 0⟩, 1, 2, [], ["AI", "Supervised Learning"]⟩
        (by rw [hall]; decide)
    obtain ⟨n, hn, hd⟩ := hex
    rw [hall] at hn
    rcases List.mem_cons.mp hn with h2 | h2
    · subst h2
      have hd0 : (0 : Nat) = (Session.getMetadata
          ⟨"s1", "u1",
        some ⟨"t1", "AI", none, "s1", ⟨"broad", "Root", "", [], 0⟩, 0, 1,
          [⟨"t2", "Supervised Learning", some "t1", "s1",
            ⟨"deep", "Learning", "", [], 0⟩, 1, 2, [], ["AI", "Supervised Learning"]⟩],
          ["AI"]⟩,
        ["AI"], 1, 1, true⟩).maxDepth := hd
      omega
    · have h3 : n = ⟨"t2", "Supervised Learning", some "t1", "s1",
        ⟨"deep", "Learning", "", [], 0⟩, 1, 2, [], ["AI", "Supervised Learning"]⟩ := by
        simpa using h2
      subst h3
      have hd1 : (1 : Nat) = (Session.getMetadata
          ⟨"s1", "u1",
        some ⟨"t1", "AI", none, "s1", ⟨"broad", "Root", "", [], 0⟩, 0, 1,
          [⟨"t2", "Supervised Learning", some "t1", "s1",
            ⟨"deep", "Learning", "", [], 0⟩, 1, 2, [], ["AI", "Supervised Learning"]⟩],
          ["AI"]⟩,
        ["AI"], 1, 1, true⟩).maxDepth := hd
      omega
  · exact (hdir "Learning").mpr ⟨by decide,
      ⟨"t2", "Supervised Learning", some "t1", "s1",
        ⟨"deep", "Learning", "", [], 0⟩, 1, 2, [], ["AI", "Supervised Learning"]⟩,
      by rw [hall]; decide, by decide⟩
  · exact (hdir "Root").mpr ⟨by decide,
      ⟨"t1", "AI", none, "s1", ⟨"broad", "Root", "", [], 0⟩, 0, 1,
          [⟨"t2", "Supervised Learning", some "t1", "s1",
            ⟨"deep", "Learning", "", [], 0⟩, 1, 2, [], ["AI", "Supervised Learning"]⟩],
          ["AI"]⟩,
      by rw [hall]; decide, by decide⟩

theorem Thought.withSessionID_parentID (t : Thought) (sid : String) :
    (t.withSessionID sid).parentID = t.parentID := by
  cases t
  rfl

theorem Thought.withSessionID_allNodes_length (t : Thought) (sid : String) :
    (t.withSessionID sid).allNodes.length = t.allNodes.length := by
  cases t
  rfl

theorem Thought.children_withChildren (t : Thought) (cs : List Thought) :
    (t.withChildren cs).children = cs := by
  cases t
  rfl

theorem getElem?_set_self {α : Type} :
    ∀ (cs : List α) (i : Nat) (c c2 : α), cs[i]? = some c → (cs.set i c2)[i]? = some c2 := by
  intro cs
  induction cs with
  | nil =>
    intro i c c2 h
    simp at h
  | cons x xs ih =>
    intro i c c2 h
    cases i with
    | zero => simp
    | succ n =>
      simp only [List.getElem?_cons_succ] at h
      show (x :: xs.set n c2)[n + 1]? = some c2
      rw [List.getElem?_cons_succ]
      exact ih n c c2 h

theorem allNodesList_set_length :
    ∀ (cs : List Thought) (i : Nat) (c c2 : Thought), cs[i]? = some c →
      (allNodesList (cs.set i c2)).length + c.allNodes.length =
        (allNodesList cs).length + c2.allNodes.length := by
  intro cs
  induction cs with
  | nil =>
    intro i c c2 h
    simp at h
  | cons x xs ih =>
    intro i c c2 h
    cases i with
    | zero =>
      simp only [List.getElem?_cons_zero, Option.some.injEq] at h
      subst h
      show (allNodesList (c2 :: xs)).length + _ = _
      simp only [allNodesList, List.length_append]
      omega
    | succ n =>
      simp only [List.getElem?_cons_succ] at h
      have hx := ih n c c2 h
      show (allNodesList (x :: xs.set n c2)).length + _ = _
      simp only [allNodesList, List.length_append]
      omega

theorem Thought.addChild_children (t c : Thought) (now : Nat) :
    (t.addChild c now).children =
      t.children ++
        [⟨c.id, c.content, some t.id, c.sessionID, c.direction, t.depth + 1,
          if c.createdAt = 0 then now else c.createdAt, c.children,
          if 0 < t.path.length then t.path ++ [c.content] else [c.content]⟩] := by
  cases t
  rfl

theorem addChild_withSessionID_children (t c : Thought) (sid : String) (now : Nat) :
    (t.addChild (c.withSessionID sid) now).children =
      t.children ++
        [⟨c.id, c.content, some t.id, sid, c.direction, t.depth + 1,
          if c.createdAt = 0 then now else c.createdAt, c.children,
          if 0 < t.path.length then t.path ++ [c.content] else [c.content]⟩] := by
  cases t
  cases c
  rfl

theorem Thought.addChild_allNodes_length (t c : Thought) (now : Nat) :
    (t.addChild c now).allNodes.length = t.allNodes.length + c.allNodes.length := by
  rw [Thought.allNodes_def (t.addChild c now), Thought.addChild_children, allNodesList_append]
  rw [Thought.allNodes_def t]
  cases c
  simp only [allNodesList, List.length_cons, List.length_append, List.append_nil,
    Thought.allNodes, Thought.children, List.length_nil]
  omega

theorem modifyAt_spec (f : Thought → Thought) :
    ∀ (p : List Nat) (r par : Thought), r.getAt p = some par →
      ∃ r2, r.modifyAt p f = some r2 ∧ r2.getAt p = some (f par) ∧
        r2.allNodes.length + par.allNodes.length =
          r.allNodes.length + (f par).allNodes.length := by
  intro p
  induction p with
  | nil =>
    intro r par hget
    simp only [Thought.getAt, Option.some.injEq] at hget
    subst hget
    exact ⟨f r, rfl, rfl, Nat.add_comm _ _⟩
  | cons i rest ih =>
    intro r par hget
    simp only [Thought.getAt] at hget
    cases hc : r.children[i]? with
    | none => rw [hc] at hget; exact absurd hget (by simp)
    | some c =>
      rw [hc] at hget
      rcases ih c par hget with ⟨c2, hmod, hat, hlen⟩
      refine ⟨r.withChildren (r.children.set i c2), ?_, ?_, ?_⟩
      · simp only [Thought.modifyAt, hc, hmod, Option.map_some']
      · simp only [Thought.getAt, Thought.children_withChildren,
          getElem?_set_self r.children i c c2 hc]
        exact hat
      · rw [Thought.allNodes_def (r.withChildren (r.children.set i c2)),
          Thought.children_withChildren, Thought.allNodes_def r]
        have hs := allNodesList_set_length r.children i c c2 hc
        simp only [List.length_cons]
        omega

theorem getThoughtTreePath_valid {s : Session} {root : Thought} {pid : String} {p : List Nat}
    (hroot : s.rootThought = some root) (h : s.getThoughtTreePath pid = some p) :
    ∃ node, root.getAt p = some node ∧ node.id = pid := by
  unfold Session.getThoughtTreePath at h
  rw [hroot] at h
  have h2 : ((root.bfsNodes.filter (fun e => e.2.id = pid)).getLast?).map Prod.fst =
      some p := h
  clear h
  cases hl : (root.bfsNodes.filter (fun e => e.2.id = pid)).getLast? with
  | none => rw [hl] at h2; exact absurd h2 (by simp)
  | some e =>
    rw [hl] at h2
    simp only [Option.map_some', Option.some.injEq] at h2
    subst h2
    have hmem : e ∈ root.bfsNodes.filter (fun e => e.2.id = pid) := by
      rcases List.mem_getLast?_eq_getLast (show e ∈ _ from hl) with ⟨hne, hlast⟩
      rw [hlast]
      exact List.getLast_mem hne
    rcases List.mem_filter.mp hmem with ⟨hbfs, hpred⟩
    exact ⟨e.2, bfsNodes_valid root e hbfs, of_decide_eq_true hpred⟩

/-- C4: `AddThoughtToSession` on a loaded session adopts the thought (with its
sessionID overwritten) as root when no root exists; otherwise it resolves the
parent — the node `GetThoughtTree` finds under the thought's `parentId`,
defaulting to the root when `parentId` is absent or names no node in the tree
— attaches the thought there via `AddChild` (appending it to the parent's
children with parentID/depth/path derived from the parent), and persists the
modified session via `UpdateSession`; the tree grows by exactly the thought's
node count. -/
theorem claim_C4_addThoughtToSession (sm : SessionManager) (sessionID : String)
    (thought : Thought) (now : Nat) (session : Session) (sm1 : SessionManager)
    (hget : sm.getSession sessionID = .ok (session, sm1)) :
    (session.rootThought = none →
      sm.addThoughtToSession sessionID thought now =
        sm1.updateSession
          { session with rootThought := some (thought.withSessionID session.id) } now) ∧
    (∀ root, session.rootThought = some root →
      ∃ ppath par root2,
        root.getAt ppath = some par ∧
        ((∃ pid, thought.parentID = some pid ∧
            session.getThoughtTreePath pid = some ppath ∧ par.id = pid) ∨
          (ppath = [] ∧ par = root ∧
            (thought.parentID = none ∨
              ∃ pid, thought.parentID = some pid ∧
                session.getThoughtTreePath pid = none))) ∧
        root.modifyAt ppath
            (fun q => q.addChild (thought.withSessionID session.id) now) = some root2 ∧
        sm.addThoughtToSession sessionID thought now =
          sm1.updateSession { session with rootThought := some root2 } now ∧
        root2.getAt ppath = some (par.addChild (thought.withSessionID session.id) now) ∧
        (par.addChild (thought.withSessionID session.id) now).children =
          par.children ++
            [⟨thought.id, thought.content, some par.id, session.id, thought.direction,
              par.depth + 1, if thought.createdAt = 0 then now else thought.createdAt,
              thought.children,
              if 0 < par.path.length then par.path ++ [thought.content]
              else [thought.content]⟩] ∧
        root2.allNodes.length = root.allNodes.length + thought.allNodes.length) := by
  constructor
  · intro hnone
    unfold SessionManager.addThoughtToSession
    rw [hget]
    simp only [hnone]
  · intro root hroot
    cases hpid : thought.parentID with
    | none =>
      rcases modifyAt_spec (fun q => q.addChild (thought.withSessionID session.id) now)
          [] root root rfl with ⟨root2, hmod, hat, hlen⟩
      refine ⟨[], root, root2, rfl, Or.inr ⟨rfl, rfl, Or.inl rfl⟩, hmod, ?_, hat,
        addChild_withSessionID_children root thought session.id now, ?_⟩
      · unfold SessionManager.addThoughtToSession
        rw [hget]
        simp only [hroot, Thought.withSessionID_parentID, hpid, hmod, Option.getD_some]
      · have h1 := Thought.addChild_allNodes_length root (thought.withSessionID session.id) now
        have h2 := Thought.withSessionID_allNodes_length thought session.id
        omega
    | some pid =>
      cases hpath : session.getThoughtTreePath pid with
      | none =>
        rcases modifyAt_spec (fun q => q.addChild (thought.withSessionID session.id) now)
            [] root root rfl with ⟨root2, hmod, hat, hlen⟩
        refine ⟨[], root, root2, rfl,
          Or.inr ⟨rfl, rfl, Or.inr ⟨pid, rfl, hpath⟩⟩, hmod, ?_, hat,
          addChild_withSessionID_children root thought session.id now, ?_⟩
        · unfold SessionManager.addThoughtToSession
          rw [hget]
          simp only [hroot, Thought.withSessionID_parentID, hpid, hpath, hmod, Option.getD_some]
        · have h1 := Thought.addChild_allNodes_length root (thought.withSessionID session.id) now
          have h2 := Thought.withSessionID_allNodes_length thought session.id
          omega
      | some p =>
        rcases getThoughtTreePath_valid hroot hpath with ⟨par, hpar, hparid⟩
        rcases modifyAt_spec (fun q => q.addChild (thought.withSessionID session.id) now)
            p root par hpar with ⟨root2, hmod, hat, hlen⟩
        refine ⟨p, par, root2, hpar, Or.inl ⟨pid, rfl, hpath, hparid⟩, hmod, ?_, hat,
          addChild_withSessionID_children par thought session.id now, ?_⟩
        · unfold SessionManager.addThoughtToSession
          rw [hget]
          simp only [hroot, Thought.withSessionID_parentID, hpid, hpath, hmod, Option.getD_some]
        · have h1 := Thought.addChild_allNodes_length par (thought.withSessionID session.id) now
          have h2 := Thought.withSessionID_allNodes_length thought session.id
          omega

/-- C4 witness: the spec's concrete scenario — a manager whose cache holds a
session with root "AI" receives a "Supervised Learning" thought with no
parentId; the thought attaches under the root and is persisted via
UpdateSession, and the resulting tree reports two thoughts with max depth 1. -/
theorem claim_C4_addThoughtToSession_witness :
    SessionManager.addThoughtToSession ⟨⟨[]⟩, [("s1", ⟨"s1", "u42", some ⟨"t1", "AI", none, "s1", ⟨"broad", "Root", "", [], 0⟩, 0, 1, [], ["AI"]⟩, ["AI"], 1, 1, true⟩)]⟩ "s1"
      ⟨"t2", "Supervised Learning", none, "", ⟨"deep", "Learning", "", [], 0⟩, 0, 0, [], []⟩ 5 =
      SessionManager.updateSession ⟨⟨[]⟩, [("s1", ⟨"s1", "u42", some ⟨"t1", "AI", none, "s1", ⟨"broad", "Root", "", [], 0⟩, 0, 1, [], ["AI"]⟩, ["AI"], 1, 1, true⟩)]⟩
        ⟨"s1", "u42",
      some (Thought.addChild ⟨"t1", "AI", none, "s1", ⟨"broad", "Root", "", [], 0⟩, 0, 1, [], ["AI"]⟩
      (Thought.withSessionID ⟨"t2", "Supervised Learning", none, "", ⟨"deep", "Learning", "", [], 0⟩, 0, 0, [], []⟩ "s1") 5), ["AI"], 1, 1, true⟩ 5 ∧
    (Thought.addChild ⟨"t1", "AI", none, "s1", ⟨"broad", "Root", "", [], 0⟩, 0, 1, [], ["AI"]⟩
      (Thought.withSessionID ⟨"t2", "Supervised Learning", none, "", ⟨"deep", "Learning", "", [], 0⟩, 0, 0, [], []⟩ "s1") 5).allNodes.length = 2 ∧
    (Session.getMetadata
      ⟨"s1", "u42",
      some (Thought.addChild ⟨"t1", "AI", none, "s1", ⟨"broad", "Root", "", [], 0⟩, 0, 1, [], ["AI"]⟩
      (Thought.withSessionID ⟨"t2", "Supervised Learning", none, "", ⟨"deep", "Learning", "", [], 0⟩, 0, 0, [], []⟩ "s1") 5), ["AI"], 1, 1, true⟩).totalThoughts = 2 ∧
    (Session.getMetadata
      ⟨"s1", "u42",
      some (Thought.addChild ⟨"t1", "AI", none, "s1", ⟨"broad", "Root", "", [], 0⟩, 0, 1, [], ["AI"]⟩
      (Thought.withSessionID ⟨"t2", "Supervised Learning", none, "", ⟨"deep", "Learning", "", [], 0⟩, 0, 0, [], []⟩ "s1") 5), ["AI"], 1, 1, true⟩).maxDepth = 1 := by
  obtain ⟨hn, hs⟩ := claim_C4_addThoughtToSession
    ⟨⟨[]⟩, [("s1", ⟨"s1", "u42", some ⟨"t1", "AI", none, "s1", ⟨"broad", "Root", "", [], 0⟩, 0, 1, [], ["AI"]⟩, ["AI"], 1, 1, true⟩)]⟩ "s1"
    ⟨"t2", "Supervised Learning", none, "", ⟨"deep", "Learning", "", [], 0⟩, 0, 0, [], []⟩ 5
    ⟨"s1", "u42", some ⟨"t1", "AI", none, "s1", ⟨"broad", "Root", "", [], 0⟩, 0, 1, [], ["AI"]⟩, ["AI"], 1, 1, true⟩
    ⟨⟨[]⟩, [("s1", ⟨"s1", "u42", some ⟨"t1", "AI", none, "s1", ⟨"broad", "Root", "", [], 0⟩, 0, 1, [], ["AI"]⟩, ["AI"], 1, 1, true⟩)]⟩ rfl
  rcases hs ⟨"t1", "AI", none, "s1", ⟨"broad", "Root", "", [], 0⟩, 0, 1, [], ["AI"]⟩ rfl with
    ⟨ppath, par, root2, hpar, hres, hmod, heq, hat, hch, hcount⟩
  rcases hres with ⟨pid, hp, hpath2, hid2⟩ | ⟨hpp, hpr, hrest⟩
  · exact Option.noConfusion (show (none : Option String) = some pid from hp)
  · subst hpp
    subst hpr
    have hroot2 : root2 = Thought.addChild ⟨"t1", "AI", none, "s1", ⟨"broad", "Root", "", [], 0⟩, 0, 1, [], ["AI"]⟩
      (Thought.withSessionID ⟨"t2", "Supervised Learning", none, "", ⟨"deep", "Learning", "", [], 0⟩, 0, 0, [], []⟩ "s1") 5 :=
      (Option.some.inj (show some (Thought.addChild ⟨"t1", "AI", none, "s1", ⟨"broad", "Root", "", [], 0⟩, 0, 1, [], ["AI"]⟩
      (Thought.withSessionID ⟨"t2", "Supervised Learning", none, "", ⟨"deep", "Learning", "", [], 0⟩, 0, 0, [], []⟩ "s1") 5) = some root2 from hmod)).symm
    subst hroot2
    have hlit : Thought.addChild ⟨"t1", "AI", none, "s1", ⟨"broad", "Root", "", [], 0⟩, 0, 1, [], ["AI"]⟩
      (Thought.withSessionID ⟨"t2", "Supervised Learning", none, "", ⟨"deep", "Learning", "", [], 0⟩, 0, 0, [], []⟩ "s1") 5 =
        (⟨"t1", "AI", none, "s1", ⟨"broad", "Root", "", [], 0⟩, 0, 1,
      [⟨"t2", "Supervised Learning", some "t1", "s1", ⟨"deep", "Learning", "", [], 0⟩,
        1, 5, [], ["AI", "Supervised Learning"]⟩], ["AI"]⟩ : Thought) := by decide
    refine ⟨heq, by decide, ?_, ?_⟩
    · rw [hlit]
      rw [getMetadata_some _ _ rfl]
      simp only [Thought.bfsNodes, bfsAux_cons, bfsAux_nil, Thought.children, List.enum,
        List.enumFrom, List.map, List.nil_append, List.append_nil, List.cons_append]
      decide
    · rw [hlit]
      rw [getMetadata_some _ _ rfl]
      simp only [Thought.bfsNodes, bfsAux_cons, bfsAux_nil, Thought.children, List.enum,
        List.enumFrom, List.map, List.nil_append, List.append_nil, List.cons_append]
      decide

theorem allNodesList_length_map (f : Thought → Thought) :
    ∀ cs : List Thought, (∀ c ∈ cs, (f c).allNodes.length = c.allNodes.length) →
      (allNodesList (cs.map f)).length = (allNodesList cs).length := by
  intro cs
  induction cs with
  | nil => intro _; rfl
  | cons c rest ih =>
    intro h
    simp only [List.map_cons, allNodesList, List.length_append]
    rw [h c (List.mem_cons_self _ _), ih (fun x hx => h x (List.mem_cons_of_mem _ hx))]

theorem allNodes_length_normalizeLoop :
    ∀ (t : Thought) (pid : Option String) (d : Nat) (np : List String),
      (normalizeLoop t pid d np).allNodes.length = t.allNodes.length := by
  intro t
  induction t using Thought.strongInduction with
  | step t ih =>
    cases t with
    | mk i c p sid dir dep ca cs pa =>
      intro pid d np
      have hcs : (allNodesList (normalizeLoopChildren i d np cs)).length =
          (allNodesList cs).length := by
        rw [normalizeLoopChildren_eq_map]
        exact allNodesList_length_map _ cs
          (fun a ha => ih a (by simpa [Thought.children] using ha) _ _ _)
      simp only [normalizeLoop, Thought.allNodes, List.length_cons, hcs]

theorem getAt_snoc_split :
    ∀ (q : List Nat) (i : Nat) (r node : Thought),
      r.getAt (q ++ [i]) = some node →
      ∃ parent, r.getAt q = some parent ∧ parent.children[i]? = some node := by
  intro q
  induction q with
  | nil =>
    intro i r node h
    refine ⟨r, rfl, ?_⟩
    simp only [List.nil_append, Thought.getAt] at h
    cases hc : r.children[i]? with
    | none => rw [hc] at h; exact absurd h (by simp)
    | some c =>
      rw [hc] at h
      simp only [Thought.getAt, Option.some.injEq] at h
      exact congrArg some h
  | cons j rest ih =>
    intro i r node h
    simp only [List.cons_append, Thought.getAt] at h
    cases hc : r.children[j]? with
    | none => rw [hc] at h; exact absurd h (by simp)
    | some c =>
      rw [hc] at h
      rcases ih i c node h with ⟨parent, h1, h2⟩
      refine ⟨parent, ?_, h2⟩
      simp only [Thought.getAt, hc]
      exact h1

theorem removeFirstChildByID_isSome :
    ∀ (cs : List Thought) (tid : String) (i : Nat) (c : Thought),
      cs[i]? = some c → c.id = tid → ∃ cs2, removeFirstChildByID cs tid = some cs2 := by
  intro cs
  induction cs with
  | nil =>
    intro tid i c h _
    simp at h
  | cons x rest ih =>
    intro tid i c h hid
    by_cases hx : x.id = tid
    · exact ⟨rest, by simp only [removeFirstChildByID, if_pos hx]⟩
    · cases i with
      | zero =>
        simp only [List.getElem?_cons_zero, Option.some.injEq] at h
        subst h
        exact absurd hid hx
      | succ n =>
        simp only [List.getElem?_cons_succ] at h
        rcases ih tid n c h hid with ⟨cs2, hcs2⟩
        exact ⟨x :: cs2, by simp only [removeFirstChildByID, if_neg hx, hcs2, Option.map_some']⟩

theorem removeFirstChildByID_eq_some :
    ∀ (cs : List Thought) (tid : String) (cs2 : List Thought),
      removeFirstChildByID cs tid = some cs2 →
      ∃ pre rem post, cs = pre ++ rem :: post ∧ rem.id = tid ∧
        (∀ x ∈ pre, x.id ≠ tid) ∧ cs2 = pre ++ post := by
  intro cs
  induction cs with
  | nil =>
    intro tid cs2 h
    simp [removeFirstChildByID] at h
  | cons x rest ih =>
    intro tid cs2 h
    by_cases hx : x.id = tid
    · simp only [removeFirstChildByID, if_pos hx, Option.some.injEq] at h
      subst h
      exact ⟨[], x, rest, rfl, hx, by simp, rfl⟩
    · simp only [removeFirstChildByID, if_neg hx] at h
      cases hrec : removeFirstChildByID rest tid with
      | none => rw [hrec] at h; exact absurd h (by simp)
      | some cs2a =>
        rw [hrec] at h
        simp only [Option.map_some', Option.some.injEq] at h
        subst h
        rcases ih tid cs2a hrec with ⟨pre, rem, post, hdec, hrid, hpre, hcs2a⟩
        refine ⟨x :: pre, rem, post, by rw [List.cons_append, hdec], hrid, ?_,
          by rw [List.cons_append, hcs2a]⟩
        intro y hy
        rcases List.mem_cons.mp hy with hy1 | hy1
        · subst hy1; exact hx
        · exact hpre y hy1

theorem removeAtParent_spec :
    ∀ (q : List Nat) (r parent : Thought) (tid : String),
      r.getAt q = some parent →
      (∃ (i : Nat) (c : Thought), parent.children[i]? = some c ∧ c.id = tid) →
      ∃ pre rem post root2,
        parent.children = pre ++ rem :: post ∧ rem.id = tid ∧ (∀ x ∈ pre, x.id ≠ tid) ∧
        r.removeAtParent q tid = some root2 ∧
        root2.getAt q = some (parent.withChildren (pre ++ post)) ∧
        root2.allNodes.length + rem.allNodes.length = r.allNodes.length := by
  intro q
  induction q with
  | nil =>
    intro r parent tid hget hex
    have hrp : parent = r := by
      have h2 : some r = some parent := hget
      exact (Option.some.inj h2).symm
    subst hrp
    rcases hex with ⟨i, c, hc, hcid⟩
    rcases removeFirstChildByID_isSome parent.children tid i c hc hcid with ⟨cs2, hcs2⟩
    rcases removeFirstChildByID_eq_some parent.children tid cs2 hcs2 with
      ⟨pre, rem, post, hdec, hrid, hpre, hcs2eq⟩
    subst hcs2eq
    refine ⟨pre, rem, post, parent.withChildren (pre ++ post), hdec, hrid, hpre, ?_, rfl, ?_⟩
    · show (removeFirstChildByID parent.children tid).map parent.withChildren = some _
      rw [hcs2]
      rfl
    · rw [Thought.allNodes_def (parent.withChildren (pre ++ post)),
        Thought.children_withChildren, Thought.allNodes_def parent, hdec]
      rw [allNodesList_append, allNodesList_append]
      simp only [allNodesList, List.length_cons, List.length_append]
      omega
  | cons j rest ih =>
    intro r parent tid hget hex
    simp only [Thought.getAt] at hget
    cases hc : r.children[j]? with
    | none => rw [hc] at hget; exact absurd hget (by simp)
    | some cj =>
      rw [hc] at hget
      rcases ih cj parent tid hget hex with ⟨pre, rem, post, c2, hdec, hrid, hpre, hrm, hat, hcnt⟩
      refine ⟨pre, rem, post, r.withChildren (r.children.set j c2), hdec, hrid, hpre, ?_, ?_, ?_⟩
      · simp only [Thought.removeAtParent, hc, hrm, Option.map_some']
      · simp only [Thought.getAt, Thought.children_withChildren,
          getElem?_set_self r.children j cj c2 hc]
        exact hat
      · rw [Thought.allNodes_def (r.withChildren (r.children.set j c2)),
          Thought.children_withChildren, Thought.allNodes_def r]
        have hs := allNodesList_set_length r.children j cj c2 hc
        simp only [List.length_cons]
        omega

/-- C2 (amended): RemoveThought first rejects a blank (all-whitespace)
thoughtId with InvalidRequest.  For a non-blank thoughtId: with no root it
fails with ThoughtNotFound; a thoughtId equal to the root's id clears
rootThought entirely (so GetMetadata then reports zero thoughts) and stamps
updatedAt without renormalizing; otherwise an absent id fails with
ThoughtNotFound, and a found id removes that node with its whole subtree from
its parent's children, renormalizes the remainder and stamps updatedAt. -/
theorem claim_C2_removeThought (s : Session) (tid : String) (now : Nat) :
    (trimSpace tid = "" → s.removeThought tid now = .error .invalidRequest) ∧
    (trimSpace tid ≠ "" →
      (s.rootThought = none → s.removeThought tid now = .error .thoughtNotFound) ∧
      (∀ root, s.rootThought = some root →
        (root.id = tid →
          s.removeThought tid now = .ok { s with rootThought := none, updatedAt := now } ∧
          Session.getMetadata { s with rootThought := none, updatedAt := now } = ⟨0, 0, []⟩) ∧
        (root.id ≠ tid → s.findThoughtPath tid = none →
          s.removeThought tid now = .error .thoughtNotFound) ∧
        (∀ p, root.id ≠ tid → s.findThoughtPath tid = some p →
          ∃ parent pre rem post root2 r2,
            root.getAt p.dropLast = some parent ∧
            parent.children = pre ++ rem :: post ∧
            rem.id = tid ∧
            (∀ x ∈ pre, x.id ≠ tid) ∧
            root.removeAtParent p.dropLast tid = some root2 ∧
            root2.getAt p.dropLast = some (parent.withChildren (pre ++ post)) ∧
            root2.allNodes.length + rem.allNodes.length = root.allNodes.length ∧
            s.removeThought tid now =
              .ok (Session.normalizeTree
                { s with rootThought := some root2, updatedAt := now }) ∧
            (Session.normalizeTree
              { s with rootThought := some root2, updatedAt := now }).updatedAt = now ∧
            (Session.normalizeTree
                { s with rootThought := some root2, updatedAt := now }).rootThought =
              some r2 ∧
            PathDepthOk r2 [] ∧
            r2.strip = root2.strip ∧
            r2.allNodes.length + rem.allNodes.length = root.allNodes.length))) := by
  constructor
  · intro htrim
    unfold Session.removeThought
    rw [if_pos htrim]
  · intro htrim
    refine ⟨?_, ?_⟩
    · intro hnone
      unfold Session.removeThought
      rw [if_neg htrim]
      simp only [hnone]
    · intro root hroot
      refine ⟨?_, ?_, ?_⟩
      · intro hrid
        constructor
        · unfold Session.removeThought
          rw [if_neg htrim]
          simp only [hroot]
          rw [if_pos hrid]
        · exact getMetadata_none _ rfl
      · intro hrid hfind
        unfold Session.removeThought
        rw [if_neg htrim]
        simp only [hroot]
        rw [if_neg hrid]
        simp only [hfind]
      · intro p hrid hfind
        rcases findThoughtPath_some hroot hfind with ⟨node, hnode, hnid⟩
        have hpne : p ≠ [] := by
          intro hp
          subst hp
          have hrn : root = node := by
            have h2 : some root = some node := hnode
            exact Option.some.inj h2
          exact hrid (by rw [hrn]; exact hnid)
        have hnode2 : root.getAt (p.dropLast ++ [p.getLast hpne]) = some node := by
          rw [List.dropLast_append_getLast hpne]
          exact hnode
        rcases getAt_snoc_split p.dropLast (p.getLast hpne) root node hnode2 with
          ⟨parent, hpar, hchild⟩
        rcases removeAtParent_spec p.dropLast root parent tid hpar
            ⟨p.getLast hpne, node, hchild, hnid⟩ with
          ⟨pre, rem, post, root2, hdec, hremid, hpre, hrm, hat2, hcount⟩
        have hnt := Session.normalizeTree_rootThought_some
          ({ s with rootThought := some root2, updatedAt := now } : Session) root2 rfl
        refine ⟨parent, pre, rem, post, root2, normalizeLoop root2 none 0 [root2.content],
          hpar, hdec, hremid, hpre, hrm, hat2, hcount, ?_, ?_, ?_, ?_, ?_, ?_⟩
        · unfold Session.removeThought
          rw [if_neg htrim]
          simp only [hroot]
          rw [if_neg hrid]
          simp only [hfind, hrm]
        · rw [hnt]
        · rw [hnt]
        · simpa using pathDepthOk_normalizeLoop root2 [] none
        · exact strip_normalizeLoop root2 none 0 [root2.content]
        · rw [allNodes_length_normalizeLoop]
          exact hcount

/-- C2 counterexample: an all-whitespace thoughtId names no node of the tree,
so the claim requires ThoughtNotFound, but RemoveThought's trim guard answers
InvalidRequest instead. -/
theorem claim_C2_removeThought_counterexample :
    (∀ n ∈ Thought.allNodes
        ⟨"t1", "A", none, "s1", ⟨"broad", "", "", [], 0⟩, 0, 1, [], ["A"]⟩,
      n.id ≠ " ") ∧
    Session.removeThought
      ⟨"s1", "u1", some ⟨"t1", "A", none, "s1", ⟨"broad", "", "", [], 0⟩, 0, 1, [], ["A"]⟩,
        [], 1, 1, true⟩ " " 5 = .error .invalidRequest ∧
    Err.invalidRequest ≠ Err.thoughtNotFound := by
  refine ⟨by decide, ?_, by decide⟩
  unfold Session.removeThought
  rw [if_pos (by decide)]

/-- C2 witness: on a two-node tree, removing the root id clears the tree (and
GetMetadata then reports zero thoughts), removing on a rootless session fails
with ThoughtNotFound, and removing the child id drops it from the root's
children, renormalizes and stamps updatedAt. -/
theorem claim_C2_removeThought_witness :
    (Session.removeThought
      ⟨"s1", "u1",
      some ⟨"t1", "A", none, "s1", ⟨"broad", "Root", "", [], 0⟩, 0, 1,
        [⟨"t2", "B", none, "s1", ⟨"deep", "Learn", "", [], 0⟩, 1, 2, [], ["A", "B"]⟩],
        ["A"]⟩,
      [], 1, 1, true⟩ "t1" 5 =
      .ok ⟨"s1", "u1", none, [], 1, 5, true⟩ ∧
    Session.getMetadata (⟨"s1", "u1", none, [], 1, 5, true⟩ : Session) = ⟨0, 0, []⟩) ∧
    Session.removeThought ⟨"s0", "u0", none, [], 1, 1, true⟩ "x" 5 = .error .thoughtNotFound ∧
    Session.removeThought
      ⟨"s1", "u1",
      some ⟨"t1", "A", none, "s1", ⟨"broad", "Root", "", [], 0⟩, 0, 1,
        [⟨"t2", "B", none, "s1", ⟨"deep", "Learn", "", [], 0⟩, 1, 2, [], ["A", "B"]⟩],
        ["A"]⟩,
      [], 1, 1, true⟩ "t2" 5 =
      .ok (Session.normalizeTree
        ⟨"s1", "u1",
          some ⟨"t1", "A", none, "s1", ⟨"broad", "Root", "", [], 0⟩, 0, 1, [], ["A"]⟩, [], 1, 5, true⟩) ∧
    (Session.normalizeTree
      ⟨"s1", "u1",
        some ⟨"t1", "A", none, "s1", ⟨"broad", "Root", "", [], 0⟩, 0, 1, [], ["A"]⟩, [], 1, 5, true⟩).updatedAt = 5 := by
  have hmain := claim_C2_removeThought
    ⟨"s1", "u1",
      some ⟨"t1", "A", none, "s1", ⟨"broad", "Root", "", [], 0⟩, 0, 1,
        [⟨"t2", "B", none, "s1", ⟨"deep", "Learn", "", [], 0⟩, 1, 2, [], ["A", "B"]⟩],
        ["A"]⟩,
      [], 1, 1, true⟩ "t1" 5
  have hroot1 := ((hmain.2 (by decide)).2
    ⟨"t1", "A", none, "s1", ⟨"broad", "Root", "", [], 0⟩, 0, 1,
        [⟨"t2", "B", none, "s1", ⟨"deep", "Learn", "", [], 0⟩, 1, 2, [], ["A", "B"]⟩],
        ["A"]⟩ rfl).1 rfl
  have hnone := ((claim_C2_removeThought ⟨"s0", "u0", none, [], 1, 1, true⟩ "x" 5).2 (by decide)).1 rfl
  have hfind : Session.findThoughtPath
      ⟨"s1", "u1",
      some ⟨"t1", "A", none, "s1", ⟨"broad", "Root", "", [], 0⟩, 0, 1,
        [⟨"t2", "B", none, "s1", ⟨"deep", "Learn", "", [], 0⟩, 1, 2, [], ["A", "B"]⟩],
        ["A"]⟩,
      [], 1, 1, true⟩ "t2" = some [0] := by
    unfold Session.findThoughtPath
    rw [if_neg (by decide)]
    simp only [Thought.bfsNodes, bfsAux_cons, bfsAux_nil, Thought.children, List.enum,
      List.enumFrom, List.map, List.nil_append, List.append_nil, List.cons_append]
    decide
  obtain ⟨parent, pre, rem, post, root2, r2, hpar, hdec, hremid, hpre, hrm, hat2, hcount,
      heq, hupd, hr2, hpd, hstrip, hcnt2⟩ :=
    (((claim_C2_removeThought
      ⟨"s1", "u1",
      some ⟨"t1", "A", none, "s1", ⟨"broad", "Root", "", [], 0⟩, 0, 1,
        [⟨"t2", "B", none, "s1", ⟨"deep", "Learn", "", [], 0⟩, 1, 2, [], ["A", "B"]⟩],
        ["A"]⟩,
      [], 1, 1, true⟩ "t2" 5).2 (by decide)).2
      ⟨"t1", "A", none, "s1", ⟨"broad", "Root", "", [], 0⟩, 0, 1,
        [⟨"t2", "B", none, "s1", ⟨"deep", "Learn", "", [], 0⟩, 1, 2, [], ["A", "B"]⟩],
        ["A"]⟩ rfl).2.2 [0] (by decide) hfind
  have hconc : Thought.removeAtParent
      ⟨"t1", "A", none, "s1", ⟨"broad", "Root", "", [], 0⟩, 0, 1,
        [⟨"t2", "B", none, "s1", ⟨"deep", "Learn", "", [], 0⟩, 1, 2, [], ["A", "B"]⟩],
        ["A"]⟩ [] "t2" =
      some (⟨"t1", "A", none, "s1", ⟨"broad", "Root", "", [], 0⟩, 0, 1, [], ["A"]⟩ : Thought) := by decide
  have hrm2 : Thought.removeAtParent
      ⟨"t1", "A", none, "s1", ⟨"broad", "Root", "", [], 0⟩, 0, 1,
        [⟨"t2", "B", none, "s1", ⟨"deep", "Learn", "", [], 0⟩, 1, 2, [], ["A", "B"]⟩],
        ["A"]⟩ [] "t2" = some root2 := hrm
  have hr2eq : (⟨"t1", "A", none, "s1", ⟨"broad", "Root", "", [], 0⟩, 0, 1, [], ["A"]⟩ : Thought) = root2 :=
    Option.some.inj (hconc.symm.trans hrm2)
  subst hr2eq
  exact ⟨⟨hroot1.1, hroot1.2⟩, hnone, heq, hupd⟩

end WideMinds
